import Mathlib

/-
Verification of the GSeam G-code post-merge tool (src/f360_seam.py).

Lines are modelled as Lean Strings (lists of characters).  Python string
primitives used by the source (strip, lstrip, lower, startswith, substring
containment) and the four regular expressions appearing in the source are
embedded as executable character-list functions.  Python regular
expressions in the source are deterministic on their inputs (no
backtracking ambiguity: every repeated class is followed by a character
outside the class), so greedy matching functions are exact translations.
Python whitespace is modelled by its six ASCII whitespace characters;
non-ASCII whitespace and non-ASCII case folding are outside the model.
-/

/-- The six ASCII whitespace characters recognised by Python str.strip and
by the regex class for whitespace. -/
def isPyWs (c : Char) : Bool :=
  c = ' ' || c = '\t' || c = '\n' || c = '\r' || c = '\x0b' || c = '\x0c'

/-- Space or tab, the regex class with only blank and tab. -/
def isSpTab (c : Char) : Bool :=
  c = ' ' || c = '\t'

/-- ASCII decimal digit, the regex digit class. -/
def isDigitChar (c : Char) : Bool :=
  '0' ≤ c && c ≤ '9'

/-- Python lstrip: drop leading whitespace. -/
def lstripChars (cs : List Char) : List Char :=
  cs.dropWhile isPyWs

/-- Python strip: drop leading and trailing whitespace. -/
def stripChars (cs : List Char) : List Char :=
  ((cs.dropWhile isPyWs).reverse.dropWhile isPyWs).reverse

/-- Python lower restricted to ASCII letters. -/
def lowerChar (c : Char) : Char :=
  if 'A' ≤ c && c ≤ 'Z' then Char.ofNat (c.toNat + 32) else c

/-- Consume one-or-more characters of class p (a regex plus on the class);
fails when the first character is not in the class. -/
def dropRun1 (p : Char → Bool) (cs : List Char) : Option (List Char) :=
  match cs with
  | c :: rest => if p c then some (rest.dropWhile p) else none
  | [] => none

/-- Tail of the sequence-numbered toolchange regex after the letter T:
digits, blanks, M6. -/
def seqTCtail (r4 : List Char) : Bool :=
  match dropRun1 isDigitChar r4 with
  | some r5 =>
    match dropRun1 isSpTab r5 with
    | some ('M' :: '6' :: _) => true
    | _ => false
  | none => false

/-- Middle of the sequence-numbered toolchange regex after the letter N:
digits, blanks, letter T, then the tail. -/
def seqTCafterN (r1 : List Char) : Bool :=
  match dropRun1 isDigitChar r1 with
  | some r2 =>
    match dropRun1 isSpTab r2 with
    | some (c :: r4) => if c = 'T' then seqTCtail r4 else false
    | _ => false
  | none => false

/-- The anchored regex of extract header and extract body for a
sequence-numbered toolchange: letter N, digits, blanks, letter T, digits,
blanks, M6.  No leading whitespace is allowed. -/
def matchSeqToolchange (cs : List Char) : Bool :=
  match cs with
  | c :: r1 => if c = 'N' then seqTCafterN r1 else false
  | [] => false

/-- The anchored regex of extract header for the fixed sequence-numbered
axis-zero rapid retract: optional blanks, N20, blanks, G53, blanks, G0,
blanks, Z0 and a dot. -/
def matchN20Retract (cs : List Char) : Bool :=
  match cs.dropWhile isSpTab with
  | 'N' :: '2' :: '0' :: r1 =>
    match dropRun1 isSpTab r1 with
    | some ('G' :: '5' :: '3' :: r2) =>
      match dropRun1 isSpTab r2 with
      | some ('G' :: '0' :: r3) =>
        match dropRun1 isSpTab r3 with
        | some ('Z' :: '0' :: '.' :: _) => true
        | _ => false
      | _ => false
    | _ => false
  | _ => false

/-- Drop one leading letter N, the optional N of the normalizer regex
(consuming it is forced whenever the head is N). -/
def dropN (cs : List Char) : List Char :=
  match cs with
  | c :: r => if c = 'N' then r else c :: r
  | [] => []

/-- Tail of the normalizer toolchange regex after the letter T: digits,
whitespace, M6. -/
def matchTCtail (r3 : List Char) : Bool :=
  match dropRun1 isDigitChar r3 with
  | some r4 =>
    match dropRun1 isPyWs r4 with
    | some ('M' :: '6' :: _) => true
    | _ => false
  | none => false

/-- The normalizer toolchange regex after the optional letter N: any
digits, any whitespace, letter T, then the tail. -/
def matchTCafterN (r0 : List Char) : Bool :=
  match (r0.dropWhile isDigitChar).dropWhile isPyWs with
  | c :: r3 => if c = 'T' then matchTCtail r3 else false
  | [] => false

/-- The toolchange regex of the normalizer and validator, applied after
lstrip: optional letter N, any digits, any whitespace, letter T, digits,
whitespace, M6. -/
def matchTCcore (cs : List Char) : Bool :=
  matchTCafterN (dropN cs)

/-- The regex substitution of the renumbering step: remove a leading
letter N with digits and trailing blanks, when present. -/
def stripSeqNum (cs : List Char) : List Char :=
  match cs with
  | c1 :: c2 :: rest =>
    if c1 = 'N' then
      if isDigitChar c2 then ((c2 :: rest).dropWhile isDigitChar).dropWhile isSpTab
      else c1 :: c2 :: rest
    else c1 :: c2 :: rest
  | _ => cs

/-- Substring test for M30, the Python in-operator on the program-end code. -/
def hasM30 : List Char → Bool
  | [] => false
  | 'M' :: rest =>
    (match rest with
     | '3' :: '0' :: _ => true
     | _ => false) || hasM30 rest
  | _ :: rest => hasM30 rest

/-- A comment line: stripped content starts with an open parenthesis. -/
def isCommentLine (l : String) : Bool :=
  match stripChars l.data with
  | c :: _ => c = '('
  | [] => false

/-- A toolchange line as classified by the normalizer and validator. -/
def isToolchange (l : String) : Bool :=
  matchTCcore (lstripChars l.data)

/-- The renumbering guard: lstripped content starts with the letter N. -/
def lstripStartsN (l : String) : Bool :=
  match lstripChars l.data with
  | c :: _ => c = 'N'
  | [] => false

/-- The thirteen comment openers the source treats as important. -/
def importantOpeners : List String :=
  ["(2d", "(3d", "(drill", "(contour", "(tool", "(operation", "(adaptive",
   "(facing", "(slot", "(bore", "(tap", "(thread", "(change"]

/-- is_important_comment of the source: the stripped, lowercased line
starts with one of the thirteen openers. -/
def is_important_comment (l : String) : Bool :=
  importantOpeners.any (fun p => p.data.isPrefixOf ((stripChars l.data).map lowerChar))

/-- The header-terminating test of extract_header. -/
def headerEndLine (l : String) : Bool :=
  matchN20Retract l.data || matchSeqToolchange l.data

/-- extract_header of the source: collect lines, stopping inclusively at
the first line matching the N20 retract or the sequence-numbered
toolchange regex. -/
def extract_header : List String → List String
  | [] => []
  | l :: ls => if headerEndLine l then [l] else l :: extract_header ls

/-- The body-start test of extract_body: comment or sequence-numbered
toolchange. -/
def bodyStartLine (l : String) : Bool :=
  isCommentLine l || matchSeqToolchange l.data

/-- The body-terminating test of extract_body: M30 anywhere in the line,
or stripped content exactly the percent sign or exactly M2. -/
def bodyTerminatorLine (l : String) : Bool :=
  hasM30 l.data || stripChars l.data = ['%'] || stripChars l.data = ['M', '2']

/-- The loop of extract_body, carrying the operation-started flag. -/
def extractBodyGo : Bool → List String → List String
  | _, [] => []
  | started, l :: ls =>
    if started || bodyStartLine l then
      if bodyTerminatorLine l then []
      else l :: extractBodyGo true ls
    else extractBodyGo false ls

/-- extract_body of the source: start at the first comment or
sequence-numbered toolchange, stop before the first terminator. -/
def extract_body (ls : List String) : List String :=
  extractBodyGo false ls

/-- Decimal digit character for a digit value. -/
def digitChar (d : Nat) : Char :=
  if d = 0 then '0'
  else if d = 1 then '1'
  else if d = 2 then '2'
  else if d = 3 then '3'
  else if d = 4 then '4'
  else if d = 5 then '5'
  else if d = 6 then '6'
  else if d = 7 then '7'
  else if d = 8 then '8'
  else '9'

/-- Fuelled digit accumulator; the fuel only bounds the recursion depth
so that the definition is structural and computes inside the kernel. -/
def natDigitsF (fuel : Nat) (n : Nat) (acc : List Char) : List Char :=
  match fuel with
  | 0 => acc
  | f + 1 => if n = 0 then acc else natDigitsF f (n / 10) (digitChar (n % 10) :: acc)

/-- Decimal digits of a positive number, most significant first, in front
of an accumulator; the number itself is always enough fuel. -/
def natDigitsGo (n : Nat) (acc : List Char) : List Char :=
  natDigitsF n n acc

/-- Decimal representation of a number as characters, the Python string
conversion used by the renumbering f-string. -/
def natReprData (n : Nat) : List Char :=
  if n = 0 then ['0'] else natDigitsGo n []

/-- Decimal representation of a number as a string. -/
def natRepr (n : Nat) : String :=
  String.mk (natReprData n)

/-- The mutable counter object of the source. -/
structure ScriptStats where
  comments_kept : Nat := 0
  comments_removed : Nat := 0
  toolchanges : Nat := 0
  toolchange_calls : Nat := 0
  lines_renumbered : Nat := 0
  total_output_lines : Nat := 0
  validation_errors : List String := []
deriving Repr, DecidableEq

/-- The keyword arguments of clean_and_renumber.  main always passes the
defaults for the subroutine name, start and step. -/
structure MergeConfig where
  renumber : Bool := true
  keep_all_comments : Bool := false
  insert_toolchange_call : Bool := false
  toolchange_subroutine : String := "toolchange"
  start_n : Nat := 10
  step_n : Nat := 10
deriving Repr, DecidableEq

/-- The synthetic subroutine-call line inserted before a toolchange. -/
def callLine (sub : String) : String :=
  "O <" ++ sub ++ "> call\n"

/-- The renumbered form of a line: letter N, the fresh number, a blank,
then the lstripped line with any old sequence number removed. -/
def mkRenumbered (n : Nat) (line : String) : String :=
  String.mk ('N' :: natReprData n ++ ' ' :: stripSeqNum (lstripChars line.data))

/-- One iteration of the clean_and_renumber loop: the lines emitted for
one input line, the next fresh number, and the updated counters. -/
def processLine (cfg : MergeConfig) (st : ScriptStats) (n : Nat) (line : String) :
    List String × Nat × ScriptStats :=
  if isCommentLine line then
    if cfg.keep_all_comments || is_important_comment line then
      ([line], n, { st with comments_kept := st.comments_kept + 1 })
    else
      ([], n, { st with comments_removed := st.comments_removed + 1 })
  else
    let callPart : List String :=
      if cfg.insert_toolchange_call && isToolchange line then
        [callLine cfg.toolchange_subroutine]
      else []
    let st1 :=
      if cfg.insert_toolchange_call && isToolchange line then
        { st with toolchange_calls := st.toolchange_calls + 1 }
      else st
    let st2 :=
      if isToolchange line then { st1 with toolchanges := st1.toolchanges + 1 }
      else st1
    if cfg.renumber && lstripStartsN line then
      (callPart ++ [mkRenumbered n line], n + cfg.step_n,
        { st2 with lines_renumbered := st2.lines_renumbered + 1 })
    else
      (callPart ++ [line], n, st2)

/-- The loop of clean_and_renumber over the whole stream. -/
def cnrGo (cfg : MergeConfig) : List String → Nat → ScriptStats → List String × ScriptStats
  | [], _, st => ([], st)
  | l :: ls, n, st =>
    let r := processLine cfg st n l
    let rest := cnrGo cfg ls r.2.1 r.2.2
    (r.1 ++ rest.1, rest.2)

/-- clean_and_renumber of the source.  The local variable for the last
line being a call is written but never read in the source and is omitted.
The total-output-lines counter is set at the end. -/
def clean_and_renumber (lines : List String) (st : ScriptStats) (cfg : MergeConfig) :
    List String × ScriptStats :=
  let r := cnrGo cfg lines cfg.start_n st
  (r.1, { r.2 with total_output_lines := r.1.length })

/-- The validator message for a toolchange count mismatch, with the two
formatted counts. -/
def mismatchMsg (found expected : Nat) : String :=
  "Internal error: toolchange count mismatch (" ++ natRepr found ++ " vs " ++
    natRepr expected ++ ")"

/-- The validator recount of toolchange lines. -/
def toolchangeRecount (ls : List String) : Nat :=
  ls.countP (fun l => isToolchange l)

/-- The error list collected by validate_output, in source order: wrong
final line, missing program end, duplicated program end, toolchange
recount mismatch.  The last line is passed in separately. -/
def validatorErrors (output_lines : List String) (st : ScriptStats) (last : String) :
    List String :=
  (if stripChars last.data = ['%'] then [] else ["Output does not end with %"]) ++
  (if output_lines.countP (fun l => hasM30 l.data) = 0 then
    ["No M30 found in output (should end program)"]
   else []) ++
  (if 1 < output_lines.countP (fun l => hasM30 l.data) then
    ["Multiple M30 lines found in output"]
   else []) ++
  (if toolchangeRecount output_lines ≠ st.toolchanges then
    [mismatchMsg (toolchangeRecount output_lines) st.toolchanges]
   else [])

/-- validate_output of the source.  Indexing the last element of an empty
list raises in Python; that failure is modelled by the none result. -/
def validate_output (output_lines : List String) (st : ScriptStats) :
    Option (List String × ScriptStats) :=
  match output_lines.getLast? with
  | none => none
  | some last =>
    some (validatorErrors output_lines st last,
      { st with validation_errors := validatorErrors output_lines st last })

/-- A terminated line chunk: a trailing newline and no interior newline. -/
def termChunk : List Char → Bool
  | [] => false
  | c :: rest => if c = '\n' then rest.isEmpty else termChunk rest

/-- The last line whose stripped content is nonempty. -/
def lastNonBlank? (ls : List String) : Option String :=
  (ls.filter (fun l => !(stripChars l.data).isEmpty)).getLast?

/-- Split a character stream into lines, each keeping its terminating
newline; a final chunk without a newline is a line of its own.  This is
the Python readlines division. -/
def linesOf : List Char → List (List Char)
  | [] => []
  | c :: cs =>
    if c = '\n' then ['\n'] :: linesOf cs
    else
      match linesOf cs with
      | [] => [[c]]
      | l :: ls => (c :: l) :: ls

/-- readlines on a whole file content. -/
def readlines (s : String) : List String :=
  (linesOf s.data).map (fun cs => String.mk cs)

/-- The header of the run: extract_header on the first file, nothing when
there are no input files. -/
def mainHeader (files : List String) : List String :=
  match files with
  | [] => []
  | f :: _ => extract_header (readlines f)

/-- The merged body stream: bodies of all files, in order. -/
def mergedBodies (files : List String) : List String :=
  (files.map (fun f => extract_body (readlines f))).flatten

/-- The configuration main builds from its three CLI-settable flags. -/
def mainConfig (renumber keepAll insertTC : Bool) : MergeConfig :=
  { renumber := renumber, keep_all_comments := keepAll,
    insert_toolchange_call := insertTC }

/-- The normalized stream and counters of the run, before validation. -/
def preStats (files : List String) (renumber keepAll insertTC : Bool) :
    List String × ScriptStats :=
  clean_and_renumber (mergedBodies files) {} (mainConfig renumber keepAll insertTC)

/-- The fixed closing block written by main. -/
def closingBlock : String :=
  "M5\n" ++ "G53 G0 Z0.\n" ++ "M30\n" ++ "%\n"

/-- The output file content written by main: header, a blank separator,
the normalized stream, a blank separator, and the fixed closing block. -/
def outputContent (header processed : List String) : String :=
  String.join header ++ "\n" ++ String.join processed ++ "\n" ++ closingBlock

/-- The content of the output file for one full run of main. -/
def mainContent (files : List String) (renumber keepAll insertTC : Bool) : String :=
  outputContent (mainHeader files) (preStats files renumber keepAll insertTC).1

/-- One full run of main: assemble the output, read it back, validate.
The none branch of validation is unreachable and leaves the counters. -/
def mainRun (files : List String) (renumber keepAll insertTC : Bool) :
    String × ScriptStats :=
  let content := mainContent files renumber keepAll insertTC
  let st := (preStats files renumber keepAll insertTC).2
  match validate_output (readlines content) st with
  | some p => (content, p.2)
  | none => (content, st)

/-- Modelled from the claim wording only (not from the source), for
comparison: a sequenced-instruction is a line whose trimmed content begins
with the letter N followed by a digit. -/
def spec_sequenced_instruction (l : String) : Bool :=
  match lstripChars l.data with
  | c1 :: c2 :: _ => decide (c1 = 'N') && isDigitChar c2
  | _ => false

/-- Decimal value of a digit string. -/
def digitsVal (ds : List Char) : Nat :=
  ds.foldl (fun a c => a * 10 + (c.toNat - 48)) 0

/-- Leading sequence number of a line: when the lstripped line starts with
the letter N, the value of the digit run after it. -/
def leadingSeqNum? (l : String) : Option Nat :=
  match lstripChars l.data with
  | c :: rest =>
    if c = 'N' then some (digitsVal (rest.takeWhile isDigitChar)) else none
  | [] => none

/-- The started branch of the body loop collects up to the terminator. -/
theorem extractBodyGo_true (ls : List String) :
    extractBodyGo true ls = ls.takeWhile (fun l => !(bodyTerminatorLine l)) := by
  induction ls with
  | nil => rfl
  | cons l ls ih =>
    by_cases h : bodyTerminatorLine l = true
    · simp [extractBodyGo, List.takeWhile, h]
    · simp only [Bool.not_eq_true] at h
      simp [extractBodyGo, List.takeWhile, h, ih]

/-- C2 counterexample: a bare toolchange without a sequence number is a
toolchange for the classifier, yet extract_body does not start at it, so
the body comes out empty instead of containing the toolchange. -/
theorem extract_body_unnumbered_toolchange_cex :
    isToolchange "T1 M6\n" = true ∧ extract_body ["T1 M6\n", "G1 X0\n"] = [] := by
  decide

/-- C2 amended: extract_body returns the run starting at the first line
that is a comment or a line matching the anchored sequence-numbered
toolchange regex (mandatory leading N-number, no leading whitespace), up
to but excluding the first terminator line; empty when no start marker
exists, and everything to the end when no terminator exists. -/
theorem extract_body_drop_take (ls : List String) :
    extract_body ls =
      (ls.dropWhile (fun l => !(bodyStartLine l))).takeWhile
        (fun l => !(bodyTerminatorLine l)) := by
  induction ls with
  | nil => rfl
  | cons l ls ih =>
    by_cases hs : bodyStartLine l = true
    · by_cases ht : bodyTerminatorLine l = true
      · simp [extract_body, extractBodyGo, List.dropWhile, List.takeWhile, hs, ht]
      · simp only [Bool.not_eq_true] at ht
        simp [extract_body, extractBodyGo, List.dropWhile, List.takeWhile, hs, ht,
          extractBodyGo_true]
    · simp only [Bool.not_eq_true] at hs
      simpa [extract_body, extractBodyGo, List.dropWhile, hs] using ih

/-- C3 counterexample: a bare toolchange without a sequence number is a
toolchange for the classifier, yet extract_header does not stop at it and
returns the whole input instead of stopping inclusively at that line. -/
theorem extract_header_unnumbered_toolchange_cex :
    isToolchange "T1 M6\n" = true ∧
      extract_header ["T1 M6\n", "G1 X0\n"] = ["T1 M6\n", "G1 X0\n"] := by
  decide

/-- C3 amended: extract_header returns the prefix up to and including the
first line matching the fixed N20 axis-zero retract pattern or the
anchored sequence-numbered toolchange regex (mandatory leading N-number,
no leading whitespace); when no such line exists it returns the whole
input. -/
theorem extract_header_take_upto (ls : List String) :
    extract_header ls =
      ls.takeWhile (fun l => !(headerEndLine l)) ++
        (ls.dropWhile (fun l => !(headerEndLine l))).take 1 := by
  induction ls with
  | nil => rfl
  | cons l ls ih =>
    by_cases h : headerEndLine l = true
    · simp [extract_header, List.takeWhile, List.dropWhile, h]
    · simp only [Bool.not_eq_true] at h
      simp [extract_header, List.takeWhile, List.dropWhile, h, ih]

/-- Any list splits as a prefix and its dropWhile remainder. -/
theorem dropWhile_suffix_decomp {α : Type} (p : α → Bool) (x : List α) :
    ∃ t, x = t ++ x.dropWhile p := by
  induction x with
  | nil => exact ⟨[], rfl⟩
  | cons c cs ih =>
    by_cases h : p c = true
    · obtain ⟨t, ht⟩ := ih
      refine ⟨c :: t, ?_⟩
      simp only [List.dropWhile_cons, h, if_true, List.cons_append]
      exact congrArg (c :: ·) ht
    · simp only [Bool.not_eq_true] at h
      exact ⟨[], by simp [List.dropWhile_cons, h]⟩

/-- takeWhile stops exactly at the first element outside the class. -/
theorem takeWhile_prefix_stop {α : Type} (p : α → Bool) (a : List α) (b : α) (t : List α)
    (ha : ∀ c ∈ a, p c = true) (hb : p b = false) :
    (a ++ b :: t).takeWhile p = a := by
  induction a with
  | nil => simp [List.takeWhile_cons, hb]
  | cons c cs ih =>
    have hc : p c = true := ha c (by simp)
    simp only [List.cons_append, List.takeWhile_cons, hc, if_true]
    exact congrArg (c :: ·) (ih (fun d hd => ha d (by simp [hd])))

/-- dropWhile jumps exactly to the first element outside the class. -/
theorem dropWhile_prefix_stop {α : Type} (p : α → Bool) (a : List α) (b : α) (t : List α)
    (ha : ∀ c ∈ a, p c = true) (hb : p b = false) :
    (a ++ b :: t).dropWhile p = b :: t := by
  induction a with
  | nil => simp [List.dropWhile_cons, hb]
  | cons c cs ih =>
    have hc : p c = true := ha c (by simp)
    simp only [List.cons_append, List.dropWhile_cons, hc, if_true]
    exact ih (fun d hd => ha d (by simp [hd]))

/-- dropWhile commutes with a final element outside the class. -/
theorem dropWhile_append_last {α : Type} (p : α → Bool) (x : List α) (c : α)
    (h : p c = false) :
    (x ++ [c]).dropWhile p = x.dropWhile p ++ [c] := by
  induction x with
  | nil => simp [List.dropWhile_cons, h]
  | cons a xs ih =>
    by_cases ha : p a = true
    · simp [List.dropWhile_cons, ha, ih]
    · simp only [Bool.not_eq_true] at ha
      simp [List.dropWhile_cons, ha]

/-- Blank and tab are whitespace. -/
theorem pyws_of_sptab (c : Char) (h : isSpTab c = true) : isPyWs c = true := by
  simp only [isSpTab, Bool.or_eq_true, decide_eq_true_eq] at h
  rcases h with h | h <;> simp [isPyWs, h]

/-- Dropping blanks and tabs first does not change a whitespace drop. -/
theorem dropWhile_sptab_pyws (x : List Char) :
    (x.dropWhile isSpTab).dropWhile isPyWs = x.dropWhile isPyWs := by
  induction x with
  | nil => rfl
  | cons c cs ih =>
    by_cases h : isSpTab c = true
    · simp [List.dropWhile_cons, h, pyws_of_sptab c h, ih]
    · simp only [Bool.not_eq_true] at h
      simp [List.dropWhile_cons, h]

/-- lstrip is the identity on a line with a non-whitespace head. -/
theorem lstrip_cons (c : Char) (cs : List Char) (h : isPyWs c = false) :
    lstripChars (c :: cs) = c :: cs := by
  simp [lstripChars, List.dropWhile_cons, h]

/-- strip keeps the head of a line with a non-whitespace head. -/
theorem stripChars_head_of_not_ws (c : Char) (cs : List Char) (h : isPyWs c = false) :
    ∃ t, stripChars (c :: cs) = c :: t := by
  unfold stripChars
  rw [show (c :: cs).dropWhile isPyWs = c :: cs by simp [List.dropWhile_cons, h]]
  refine ⟨(cs.reverse.dropWhile isPyWs).reverse, ?_⟩
  rw [List.reverse_cons, dropWhile_append_last isPyWs cs.reverse c h, List.reverse_append]
  rfl

/-- The stripped line is a prefix of the lstripped line. -/
theorem strip_pfx_of_lstrip (cs : List Char) :
    ∃ s, lstripChars cs = stripChars cs ++ s := by
  unfold stripChars lstripChars
  obtain ⟨t, ht⟩ := dropWhile_suffix_decomp isPyWs (cs.dropWhile isPyWs).reverse
  refine ⟨t.reverse, ?_⟩
  conv_lhs => rw [← List.reverse_reverse (cs.dropWhile isPyWs), ht]
  rw [List.reverse_append]

/-- Every digit character is in the digit class. -/
theorem digitChar_digit (d : Nat) : isDigitChar (digitChar d) = true := by
  unfold digitChar
  repeat' split
  all_goals decide

/-- A digit character is never a newline. -/
theorem digit_ne_nl (c : Char) (h : isDigitChar c = true) : c ≠ '\n' := by
  rintro rfl
  exact absurd h (by decide)

/-- The fuelled accumulator ignores the exact fuel above the number. -/
theorem natDigitsF_fuel (n : Nat) : ∀ f g : Nat, ∀ acc : List Char, n ≤ f → n ≤ g →
    natDigitsF f n acc = natDigitsF g n acc := by
  induction n using Nat.strong_induction_on with
  | _ n ih =>
    intro f g acc hf hg
    by_cases h : n = 0
    · subst h
      cases f <;> cases g <;> simp [natDigitsF]
    · obtain ⟨f1, rfl⟩ : ∃ f1, f = f1 + 1 := by
        cases f
        · exact absurd hf (by omega)
        · exact ⟨_, rfl⟩
      obtain ⟨g1, rfl⟩ : ∃ g1, g = g1 + 1 := by
        cases g
        · exact absurd hg (by omega)
        · exact ⟨_, rfl⟩
      have hlt : n / 10 < n := Nat.div_lt_self (Nat.pos_of_ne_zero h) (by decide)
      simp only [natDigitsF, h, if_false]
      exact ih (n / 10) hlt f1 g1 _ (by omega) (by omega)

/-- The digit accumulator on zero returns the accumulator. -/
theorem natDigitsGo_zero (acc : List Char) : natDigitsGo 0 acc = acc := rfl

/-- One unfolding of the digit accumulator on a positive number. -/
theorem natDigitsGo_pos (n : Nat) (acc : List Char) (h : n ≠ 0) :
    natDigitsGo n acc = natDigitsGo (n / 10) (digitChar (n % 10) :: acc) := by
  unfold natDigitsGo
  obtain ⟨n1, rfl⟩ : ∃ n1, n = n1 + 1 := by
    cases n
    · exact absurd rfl h
    · exact ⟨_, rfl⟩
  simp only [natDigitsF, h, if_false]
  exact natDigitsF_fuel ((n1 + 1) / 10) n1 ((n1 + 1) / 10) _
    (Nat.lt_succ_iff.mp (Nat.div_lt_self (Nat.succ_pos n1) (by decide))) (le_refl _)

/-- The digit accumulator prepends to its accumulator. -/
theorem natDigitsGo_acc (n : Nat) : ∀ acc : List Char,
    natDigitsGo n acc = natDigitsGo n [] ++ acc := by
  induction n using Nat.strong_induction_on with
  | _ n ih =>
    intro acc
    by_cases h : n = 0
    · subst h
      rw [natDigitsGo_zero, natDigitsGo_zero]
      simp
    · have hlt : n / 10 < n := Nat.div_lt_self (Nat.pos_of_ne_zero h) (by decide)
      calc natDigitsGo n acc
          = natDigitsGo (n / 10) (digitChar (n % 10) :: acc) := natDigitsGo_pos n acc h
        _ = natDigitsGo (n / 10) [] ++ digitChar (n % 10) :: acc :=
            ih (n / 10) hlt (digitChar (n % 10) :: acc)
        _ = (natDigitsGo (n / 10) [] ++ [digitChar (n % 10)]) ++ acc := by simp
        _ = natDigitsGo (n / 10) (digitChar (n % 10) :: []) ++ acc := by
            rw [ih (n / 10) hlt (digitChar (n % 10) :: [])]
        _ = natDigitsGo n [] ++ acc := by rw [← natDigitsGo_pos n [] h]

/-- All characters produced by the digit accumulator are digits. -/
theorem natDigitsGo_digits (n : Nat) : ∀ acc : List Char,
    (∀ c ∈ acc, isDigitChar c = true) →
    ∀ c ∈ natDigitsGo n acc, isDigitChar c = true := by
  induction n using Nat.strong_induction_on with
  | _ n ih =>
    intro acc hacc c hc
    by_cases h : n = 0
    · subst h
      rw [natDigitsGo_zero] at hc
      exact hacc c hc
    · rw [natDigitsGo_pos n acc h] at hc
      have hlt : n / 10 < n := Nat.div_lt_self (Nat.pos_of_ne_zero h) (by decide)
      refine ih (n / 10) hlt _ ?_ c hc
      intro d hd
      rcases List.mem_cons.mp hd with h1 | h1
      · subst h1; exact digitChar_digit _
      · exact hacc d h1

/-- All characters of the decimal representation are digits. -/
theorem natReprData_digits (n : Nat) : ∀ c ∈ natReprData n, isDigitChar c = true := by
  intro c hc
  unfold natReprData at hc
  by_cases h : n = 0
  · simp only [h, if_true] at hc
    simp only [List.mem_singleton] at hc
    subst hc; decide
  · simp only [h, if_false] at hc
    exact natDigitsGo_digits n [] (by simp) c hc

/-- Value of a digit character, for digit values below ten. -/
theorem digitChar_val (d : Nat) (h : d < 10) : (digitChar d).toNat - 48 = d := by
  interval_cases d <;> decide

/-- Appending one digit multiplies the value by ten and adds the digit. -/
theorem digitsVal_append_digit (xs : List Char) (d : Char) :
    digitsVal (xs ++ [d]) = digitsVal xs * 10 + (d.toNat - 48) := by
  unfold digitsVal
  rw [List.foldl_append]
  rfl

/-- Parsing the decimal representation of a number gives the number back. -/
theorem digitsVal_natReprData (n : Nat) : digitsVal (natReprData n) = n := by
  induction n using Nat.strong_induction_on with
  | _ n ih =>
    by_cases h : n = 0
    · subst h; decide
    · unfold natReprData
      simp only [h, if_false]
      rw [natDigitsGo_pos n [] h,
        natDigitsGo_acc (n / 10) (digitChar (n % 10) :: []),
        digitsVal_append_digit, digitChar_val (n % 10) (Nat.mod_lt n (by decide))]
      by_cases h10 : n / 10 = 0
      · have : digitsVal (natDigitsGo (n / 10) []) = 0 := by
          rw [h10, natDigitsGo_zero]
          rfl
        rw [this]
        have := Nat.div_add_mod n 10
        omega
      · have hlt : n / 10 < n := Nat.div_lt_self (Nat.pos_of_ne_zero h) (by decide)
        have hrec := ih (n / 10) hlt
        unfold natReprData at hrec
        simp only [h10, if_false] at hrec
        rw [hrec]
        have := Nat.div_add_mod n 10
        omega

/-- A comment line lstrips to an open parenthesis head. -/
theorem comment_lstrip (l : String) (h : isCommentLine l = true) :
    ∃ t, lstripChars l.data = '(' :: t := by
  unfold isCommentLine at h
  rcases hs : stripChars l.data with _ | ⟨c, u⟩
  · rw [hs] at h
    exact absurd h (by simp)
  · rw [hs] at h
    simp only [decide_eq_true_eq] at h
    subst h
    obtain ⟨s, hsuf⟩ := strip_pfx_of_lstrip l.data
    exact ⟨u ++ s, by rw [hsuf, hs]; simp⟩

/-- dropN is the identity when the head is not the letter N. -/
theorem dropN_cons_of_ne (c : Char) (r : List Char) (h : c ≠ 'N') :
    dropN (c :: r) = c :: r := by
  simp [dropN, h]

/-- dropN removes a letter N head. -/
theorem dropN_cons_N (r : List Char) : dropN ('N' :: r) = r := by
  simp [dropN]

/-- The normalizer regex after the optional N fails on a head that is not
a digit, not whitespace and not the letter T. -/
theorem matchTCafterN_head_false (c : Char) (r : List Char)
    (h1 : isDigitChar c = false) (h2 : isPyWs c = false) (h3 : c ≠ 'T') :
    matchTCafterN (c :: r) = false := by
  unfold matchTCafterN
  rw [show (c :: r).dropWhile isDigitChar = c :: r by simp [List.dropWhile_cons, h1],
    show (c :: r).dropWhile isPyWs = c :: r by simp [List.dropWhile_cons, h2]]
  simp [h3]

/-- Two inputs with the same residue after the digit and whitespace drops
agree on the normalizer regex. -/
theorem matchTCafterN_congr (a b : List Char)
    (h : (a.dropWhile isDigitChar).dropWhile isPyWs =
         (b.dropWhile isDigitChar).dropWhile isPyWs) :
    matchTCafterN a = matchTCafterN b := by
  unfold matchTCafterN
  rw [h]

/-- A comment line is never a toolchange for the normalizer regex. -/
theorem not_toolchange_of_comment (l : String) (h : isCommentLine l = true) :
    isToolchange l = false := by
  obtain ⟨t, ht⟩ := comment_lstrip l h
  unfold isToolchange matchTCcore
  rw [ht, dropN_cons_of_ne '(' t (by decide)]
  exact matchTCafterN_head_false '(' t (by decide) (by decide) (by decide)

/-- A comment line never starts with the letter N after lstrip. -/
theorem not_Nstart_of_comment (l : String) (h : isCommentLine l = true) :
    lstripStartsN l = false := by
  obtain ⟨t, ht⟩ := comment_lstrip l h
  unfold lstripStartsN
  rw [ht]
  simp

/-- A comment line has no leading sequence number. -/
theorem leadingSeqNum_of_comment (l : String) (h : isCommentLine l = true) :
    leadingSeqNum? l = none := by
  obtain ⟨t, ht⟩ := comment_lstrip l h
  unfold leadingSeqNum?
  rw [ht]
  simp

/-- The character data of an inserted call line. -/
theorem callLine_data (sub : String) :
    (callLine sub).data =
      ['O', ' ', '<'] ++ sub.data ++ ['>', ' ', 'c', 'a', 'l', 'l', '\n'] := by
  unfold callLine
  rw [String.data_append, String.data_append]

/-- An inserted call line is not a comment. -/
theorem callLine_not_comment (sub : String) : isCommentLine (callLine sub) = false := by
  unfold isCommentLine
  rw [callLine_data]
  obtain ⟨t, ht⟩ :=
    stripChars_head_of_not_ws 'O' (' ' :: '<' :: (sub.data ++ ['>', ' ', 'c', 'a', 'l', 'l', '\n'])) (by decide)
  simp only [List.cons_append, List.nil_append] at ht ⊢
  rw [ht]
  simp

/-- An inserted call line is not a toolchange. -/
theorem callLine_not_toolchange (sub : String) : isToolchange (callLine sub) = false := by
  unfold isToolchange matchTCcore
  rw [callLine_data]
  simp only [List.cons_append, List.nil_append]
  rw [lstrip_cons 'O' _ (by decide), dropN_cons_of_ne 'O' _ (by decide)]
  exact matchTCafterN_head_false 'O' _ (by decide) (by decide) (by decide)

/-- An inserted call line does not start with the letter N after lstrip. -/
theorem callLine_not_Nstart (sub : String) : lstripStartsN (callLine sub) = false := by
  unfold lstripStartsN
  rw [callLine_data]
  simp only [List.cons_append, List.nil_append]
  rw [lstrip_cons 'O' _ (by decide)]
  simp

/-- An inserted call line has no leading sequence number. -/
theorem callLine_leadingSeqNum (sub : String) : leadingSeqNum? (callLine sub) = none := by
  unfold leadingSeqNum?
  rw [callLine_data]
  simp only [List.cons_append, List.nil_append]
  rw [lstrip_cons 'O' _ (by decide)]
  rfl

/-- Character data of a renumbered line. -/
theorem mkRenumbered_data (n : Nat) (l : String) :
    (mkRenumbered n l).data =
      'N' :: natReprData n ++ ' ' :: stripSeqNum (lstripChars l.data) := rfl

/-- lstrip is the identity on a renumbered line. -/
theorem lstrip_mkRenumbered (n : Nat) (l : String) :
    lstripChars (mkRenumbered n l).data =
      'N' :: natReprData n ++ ' ' :: stripSeqNum (lstripChars l.data) := by
  rw [mkRenumbered_data]
  exact lstrip_cons 'N' _ (by decide)

/-- Value of the leading-number parse on a line with known lstrip. -/
theorem leadingSeqNum_eq (l : String) (c : Char) (rest : List Char)
    (h : lstripChars l.data = c :: rest) :
    leadingSeqNum? l =
      if c = 'N' then some (digitsVal (rest.takeWhile isDigitChar)) else none := by
  unfold leadingSeqNum?
  rw [h]

/-- The leading sequence number of a renumbered line is the fresh number. -/
theorem leadingSeqNum_mkRenumbered (n : Nat) (l : String) :
    leadingSeqNum? (mkRenumbered n l) = some n := by
  have h := lstrip_mkRenumbered n l
  simp only [List.cons_append] at h
  rw [leadingSeqNum_eq _ _ _ h, if_pos rfl,
    takeWhile_prefix_stop isDigitChar (natReprData n) ' '
      (stripSeqNum (lstripChars l.data)) (natReprData_digits n) (by decide),
    digitsVal_natReprData]

/-- A renumbered line starts with the letter N after lstrip. -/
theorem mkRenumbered_Nstart (n : Nat) (l : String) :
    lstripStartsN (mkRenumbered n l) = true := by
  unfold lstripStartsN
  rw [lstrip_mkRenumbered]
  simp

/-- A renumbered line is not a comment. -/
theorem mkRenumbered_not_comment (n : Nat) (l : String) :
    isCommentLine (mkRenumbered n l) = false := by
  unfold isCommentLine
  rw [mkRenumbered_data]
  obtain ⟨t, ht⟩ := stripChars_head_of_not_ws 'N'
    (natReprData n ++ ' ' :: stripSeqNum (lstripChars l.data)) (by decide)
  simp only [List.cons_append] at ht ⊢
  rw [ht]
  simp

/-- Lines not starting with the letter N have no leading sequence number. -/
theorem leadingSeqNum_none_of_not_Nstart (l : String) (h : lstripStartsN l = false) :
    leadingSeqNum? l = none := by
  unfold lstripStartsN at h
  unfold leadingSeqNum?
  rcases hs : lstripChars l.data with _ | ⟨c, rest⟩
  · rfl
  · rw [hs] at h
    have h2 : ¬ c = 'N' := by simpa using h
    simp [h2]

/-- The lines emitted by one iteration of the normalizer loop. -/
theorem processLine_chunk (cfg : MergeConfig) (st : ScriptStats) (n : Nat) (l : String) :
    (processLine cfg st n l).1 =
      if isCommentLine l then
        (if cfg.keep_all_comments || is_important_comment l then [l] else [])
      else
        (if cfg.insert_toolchange_call && isToolchange l then
          [callLine cfg.toolchange_subroutine]
         else []) ++
          [if cfg.renumber && lstripStartsN l then mkRenumbered n l else l] := by
  unfold processLine
  by_cases hc : isCommentLine l
  · by_cases hk : (cfg.keep_all_comments || is_important_comment l) = true
    · simp [hc, hk]
    · simp only [Bool.not_eq_true] at hk
      simp [hc, hk]
  · simp only [Bool.not_eq_true] at hc
    by_cases hi : (cfg.insert_toolchange_call && isToolchange l) = true
    · by_cases hr : (cfg.renumber && lstripStartsN l) = true
      · simp [hc, hi, hr]
      · simp only [Bool.not_eq_true] at hr
        simp [hc, hi, hr]
    · simp only [Bool.not_eq_true] at hi
      by_cases hr : (cfg.renumber && lstripStartsN l) = true
      · simp [hc, hi, hr]
      · simp only [Bool.not_eq_true] at hr
        simp [hc, hi, hr]

/-- The next fresh number after one iteration of the normalizer loop. -/
theorem processLine_next (cfg : MergeConfig) (st : ScriptStats) (n : Nat) (l : String) :
    (processLine cfg st n l).2.1 =
      if !(isCommentLine l) && (cfg.renumber && lstripStartsN l) then n + cfg.step_n
      else n := by
  unfold processLine
  by_cases hc : isCommentLine l
  · by_cases hk : (cfg.keep_all_comments || is_important_comment l) = true
    · simp [hc, hk]
    · simp only [Bool.not_eq_true] at hk
      simp [hc, hk]
  · simp only [Bool.not_eq_true] at hc
    by_cases hr : (cfg.renumber && lstripStartsN l) = true
    · simp [hc, hr]
    · simp only [Bool.not_eq_true] at hr
      simp [hc, hr]

/-- The counter changes of one iteration of the normalizer loop. -/
theorem processLine_stats (cfg : MergeConfig) (st : ScriptStats) (n : Nat) (l : String) :
    (processLine cfg st n l).2.2 =
      { st with
        comments_kept := st.comments_kept +
          (if isCommentLine l && (cfg.keep_all_comments || is_important_comment l)
           then 1 else 0),
        comments_removed := st.comments_removed +
          (if isCommentLine l && !(cfg.keep_all_comments || is_important_comment l)
           then 1 else 0),
        toolchanges := st.toolchanges +
          (if !(isCommentLine l) && isToolchange l then 1 else 0),
        toolchange_calls := st.toolchange_calls +
          (if !(isCommentLine l) && (cfg.insert_toolchange_call && isToolchange l)
           then 1 else 0),
        lines_renumbered := st.lines_renumbered +
          (if !(isCommentLine l) && (cfg.renumber && lstripStartsN l) then 1 else 0) } := by
  unfold processLine
  by_cases hc : isCommentLine l
  · by_cases hk : (cfg.keep_all_comments || is_important_comment l) = true
    · simp [hc, hk]
    · simp only [Bool.not_eq_true] at hk
      simp [hc, hk]
  · simp only [Bool.not_eq_true] at hc
    by_cases ht : isToolchange l = true
    · by_cases hi : cfg.insert_toolchange_call = true
      · by_cases hr : (cfg.renumber && lstripStartsN l) = true
        · simp [hc, ht, hi, hr]
        · simp only [Bool.not_eq_true] at hr
          simp [hc, ht, hi, hr]
      · simp only [Bool.not_eq_true] at hi
        by_cases hr : (cfg.renumber && lstripStartsN l) = true
        · simp [hc, ht, hi, hr]
        · simp only [Bool.not_eq_true] at hr
          simp [hc, ht, hi, hr]
    · simp only [Bool.not_eq_true] at ht
      by_cases hr : (cfg.renumber && lstripStartsN l) = true
      · simp [hc, ht, hr]
      · simp only [Bool.not_eq_true] at hr
        simp [hc, ht, hr]


/-- Output of the normalizer loop on a first line and the rest. -/
theorem cnrGo_cons_fst (cfg : MergeConfig) (l : String) (ls : List String) (n : Nat)
    (st : ScriptStats) :
    (cnrGo cfg (l :: ls) n st).1 =
      (processLine cfg st n l).1 ++
        (cnrGo cfg ls (processLine cfg st n l).2.1 (processLine cfg st n l).2.2).1 := rfl

/-- Final counters of the normalizer loop on a first line and the rest. -/
theorem cnrGo_cons_snd (cfg : MergeConfig) (l : String) (ls : List String) (n : Nat)
    (st : ScriptStats) :
    (cnrGo cfg (l :: ls) n st).2 =
      (cnrGo cfg ls (processLine cfg st n l).2.1 (processLine cfg st n l).2.2).2 := rfl

/-- The leading numbers contributed by one iteration when renumbering. -/
theorem processLine_chunk_nums (cfg : MergeConfig) (st : ScriptStats) (n : Nat)
    (l : String) (h : cfg.renumber = true) :
    (processLine cfg st n l).1.filterMap leadingSeqNum? =
      if !(isCommentLine l) && lstripStartsN l then [n] else [] := by
  rw [processLine_chunk]
  by_cases hc : isCommentLine l
  · by_cases hk : (cfg.keep_all_comments || is_important_comment l) = true
    · simp [hc, hk, leadingSeqNum_of_comment l hc]
    · simp only [Bool.not_eq_true] at hk
      simp [hc, hk]
  · simp only [Bool.not_eq_true] at hc
    by_cases hN : lstripStartsN l = true
    · by_cases hi : (cfg.insert_toolchange_call && isToolchange l) = true
      · simp [hc, hN, hi, h, callLine_leadingSeqNum, leadingSeqNum_mkRenumbered]
      · simp only [Bool.not_eq_true] at hi
        simp [hc, hN, hi, h, leadingSeqNum_mkRenumbered]
    · simp only [Bool.not_eq_true] at hN
      by_cases hi : (cfg.insert_toolchange_call && isToolchange l) = true
      · simp [hc, hN, hi, h, callLine_leadingSeqNum,
          leadingSeqNum_none_of_not_Nstart l hN]
      · simp only [Bool.not_eq_true] at hi
        simp [hc, hN, hi, h, leadingSeqNum_none_of_not_Nstart l hN]

/-- The numbers assigned by the normalizer loop form the arithmetic
progression from the running start, one step per renumbered line. -/
theorem cnrGo_nums (cfg : MergeConfig) (h : cfg.renumber = true) :
    ∀ (lines : List String) (n : Nat) (st : ScriptStats),
    (cnrGo cfg lines n st).1.filterMap leadingSeqNum? =
      (List.range (lines.countP (fun l => !(isCommentLine l) && lstripStartsN l))).map
        (fun i => n + cfg.step_n * i) := by
  intro lines
  induction lines with
  | nil => intro n st; simp [cnrGo]
  | cons l ls ih =>
    intro n st
    rw [cnrGo_cons_fst]
    rw [List.filterMap_append]
    rw [processLine_chunk_nums cfg st n l h, processLine_next cfg st n l,
      List.countP_cons]
    by_cases hl : (!(isCommentLine l) && lstripStartsN l) = true
    · have hren : (!(isCommentLine l) && (cfg.renumber && lstripStartsN l)) = true := by
        rw [h]
        simpa using hl
      rw [if_pos hl, if_pos hren, if_pos hl, ih]
      rw [List.range_succ_eq_map, List.map_cons, List.map_map]
      have harith : ((fun i => n + cfg.step_n * i) ∘ Nat.succ) =
          (fun i => n + cfg.step_n + cfg.step_n * i) := by
        funext i
        rw [Function.comp_apply, Nat.succ_eq_add_one]
        ring
      rw [harith]
      simp
    · have hl2 : ¬ ((!(isCommentLine l) && lstripStartsN l) = true) := hl
      have hren : ¬ ((!(isCommentLine l) && (cfg.renumber && lstripStartsN l)) = true) := by
        rw [h]
        simp only [Bool.not_eq_true] at hl2 ⊢
        simpa using hl2
      rw [if_neg hl2, if_neg hren, if_neg hl2, ih]
      simp

/-- The renumbered-lines counter of the normalizer loop counts the
non-comment lines whose lstrip starts with the letter N. -/
theorem cnrGo_renumbered (cfg : MergeConfig) :
    ∀ (lines : List String) (n : Nat) (st : ScriptStats),
    (cnrGo cfg lines n st).2.lines_renumbered =
      st.lines_renumbered +
        lines.countP (fun l => !(isCommentLine l) && (cfg.renumber && lstripStartsN l)) := by
  intro lines
  induction lines with
  | nil => intro n st; simp [cnrGo]
  | cons l ls ih =>
    intro n st
    rw [cnrGo_cons_snd, ih, processLine_stats, List.countP_cons]
    dsimp only
    by_cases hl : (!(isCommentLine l) && (cfg.renumber && lstripStartsN l)) = true
    · rw [if_pos hl]
      omega
    · rw [if_neg hl]
      omega

/-- A non-comment line that is not renumbered is emitted unchanged and so
appears in the output of the normalizer loop. -/
theorem cnrGo_mem_unchanged (cfg : MergeConfig) :
    ∀ (lines : List String) (n : Nat) (st : ScriptStats) (l : String),
    l ∈ lines → isCommentLine l = false → lstripStartsN l = false →
    l ∈ (cnrGo cfg lines n st).1 := by
  intro lines
  induction lines with
  | nil => intro n st l hl; exact absurd hl (by simp)
  | cons a ls ih =>
    intro n st l hl hc hN
    rw [cnrGo_cons_fst]
    rw [List.mem_append]
    rcases List.mem_cons.mp hl with rfl | hmem
    · left
      rw [processLine_chunk]
      simp [hc, hN]
    · right
      exact ih _ _ l hmem hc hN

/-- The output lines of clean_and_renumber are those of its loop. -/
theorem clean_and_renumber_fst (lines : List String) (st : ScriptStats)
    (cfg : MergeConfig) :
    (clean_and_renumber lines st cfg).1 = (cnrGo cfg lines cfg.start_n st).1 := rfl

/-- The renumbered-lines counter survives the final total update. -/
theorem clean_and_renumber_renum (lines : List String) (st : ScriptStats)
    (cfg : MergeConfig) :
    (clean_and_renumber lines st cfg).2.lines_renumbered =
      (cnrGo cfg lines cfg.start_n st).2.lines_renumbered := rfl

/-- C4 counterexample: a line whose trimmed content is N followed by a
letter is not a sequenced-instruction under the claim, yet default
normalization renumbers it (prepending a fresh number) and it consumes a
number, shifting the next sequenced-instruction to N20. -/
theorem renumber_nondigit_cex :
    spec_sequenced_instruction "Nope\n" = false ∧
      (clean_and_renumber ["Nope\n", "N5 G0 X1\n"] {} {}).1 =
        ["N10 Nope\n", "N20 G0 X1\n"] ∧
      ("N10 Nope\n" : String) ≠ ("Nope\n" : String) := by
  decide

/-- C4 amended: when renumbering is enabled, exactly the non-comment
lines whose lstripped content begins with the letter N (digits not
required) are renumbered; the numbers assigned across the stream are
start, start plus step, and so on, in output order; and every non-comment
line not beginning with N is emitted unchanged and consumes no number. -/
theorem renumber_progression (lines : List String) (st : ScriptStats)
    (cfg : MergeConfig) (h : cfg.renumber = true) :
    (clean_and_renumber lines st cfg).1.filterMap leadingSeqNum? =
      (List.range (lines.countP (fun l => !(isCommentLine l) && lstripStartsN l))).map
        (fun i => cfg.start_n + cfg.step_n * i) ∧
    (clean_and_renumber lines st cfg).2.lines_renumbered =
      st.lines_renumbered +
        lines.countP (fun l => !(isCommentLine l) && lstripStartsN l) ∧
    ∀ l ∈ lines, isCommentLine l = false → lstripStartsN l = false →
      l ∈ (clean_and_renumber lines st cfg).1 := by
  refine ⟨?_, ?_, ?_⟩
  · rw [clean_and_renumber_fst]
    exact cnrGo_nums cfg h lines cfg.start_n st
  · rw [clean_and_renumber_renum, cnrGo_renumbered]
    simp [h]
  · intro l hl hc hN
    rw [clean_and_renumber_fst]
    exact cnrGo_mem_unchanged cfg lines cfg.start_n st l hl hc hN

/-- Witness for the amended renumbering claim at a concrete stream. -/
theorem renumber_progression_witness :
    ({} : MergeConfig).renumber = true ∧
      (clean_and_renumber ["N5 G0 X1\n", "G2 Y4\n", "N88 Z1\n"] {} {}).1.filterMap
        leadingSeqNum? = [10, 20] := by
  constructor
  · rfl
  · have h := (renumber_progression ["N5 G0 X1\n", "G2 Y4\n", "N88 Z1\n"] {} {} rfl).1
    exact h.trans (by decide)

/-- The comment lines contributed by one iteration of the normalizer. -/
theorem processLine_chunk_comments (cfg : MergeConfig) (st : ScriptStats) (n : Nat)
    (l : String) :
    (processLine cfg st n l).1.filter (fun x => isCommentLine x) =
      if isCommentLine l && (cfg.keep_all_comments || is_important_comment l)
      then [l] else [] := by
  rw [processLine_chunk]
  by_cases hc : isCommentLine l
  · by_cases hk : (cfg.keep_all_comments || is_important_comment l) = true
    · simp [hc, hk]
    · simp only [Bool.not_eq_true] at hk
      simp [hc, hk]
  · simp only [Bool.not_eq_true] at hc
    by_cases hi : (cfg.insert_toolchange_call && isToolchange l) = true
    · by_cases hr : (cfg.renumber && lstripStartsN l) = true
      · simp [hc, hi, hr, callLine_not_comment, mkRenumbered_not_comment]
      · simp only [Bool.not_eq_true] at hr
        simp [hc, hi, hr, callLine_not_comment]
    · simp only [Bool.not_eq_true] at hi
      by_cases hr : (cfg.renumber && lstripStartsN l) = true
      · simp [hc, hi, hr, mkRenumbered_not_comment]
      · simp only [Bool.not_eq_true] at hr
        simp [hc, hi, hr]

/-- The comment lines surviving the normalizer loop are exactly the input
comments passing the filter, verbatim and in order. -/
theorem cnrGo_comments (cfg : MergeConfig) :
    ∀ (lines : List String) (n : Nat) (st : ScriptStats),
    (cnrGo cfg lines n st).1.filter (fun x => isCommentLine x) =
      lines.filter
        (fun l => isCommentLine l && (cfg.keep_all_comments || is_important_comment l)) := by
  intro lines
  induction lines with
  | nil => intro n st; simp [cnrGo]
  | cons l ls ih =>
    intro n st
    rw [cnrGo_cons_fst, List.filter_append, processLine_chunk_comments, ih,
      List.filter_cons]
    by_cases hl : (isCommentLine l && (cfg.keep_all_comments || is_important_comment l)) = true
    · rw [if_pos hl, if_pos hl]
      rfl
    · rw [if_neg hl, if_neg hl]
      rfl

/-- The kept-comments counter of the normalizer loop. -/
theorem cnrGo_kept (cfg : MergeConfig) :
    ∀ (lines : List String) (n : Nat) (st : ScriptStats),
    (cnrGo cfg lines n st).2.comments_kept =
      st.comments_kept +
        lines.countP
          (fun l => isCommentLine l && (cfg.keep_all_comments || is_important_comment l)) := by
  intro lines
  induction lines with
  | nil => intro n st; simp [cnrGo]
  | cons l ls ih =>
    intro n st
    rw [cnrGo_cons_snd, ih, processLine_stats, List.countP_cons]
    dsimp only
    by_cases hl : (isCommentLine l && (cfg.keep_all_comments || is_important_comment l)) = true
    · rw [if_pos hl]
      omega
    · rw [if_neg hl]
      omega

/-- The removed-comments counter of the normalizer loop. -/
theorem cnrGo_removed (cfg : MergeConfig) :
    ∀ (lines : List String) (n : Nat) (st : ScriptStats),
    (cnrGo cfg lines n st).2.comments_removed =
      st.comments_removed +
        lines.countP
          (fun l => isCommentLine l && !(cfg.keep_all_comments || is_important_comment l)) := by
  intro lines
  induction lines with
  | nil => intro n st; simp [cnrGo]
  | cons l ls ih =>
    intro n st
    rw [cnrGo_cons_snd, ih, processLine_stats, List.countP_cons]
    dsimp only
    by_cases hl : (isCommentLine l && !(cfg.keep_all_comments || is_important_comment l)) = true
    · rw [if_pos hl]
      omega
    · rw [if_neg hl]
      omega

/-- The kept-comments counter survives the final total update. -/
theorem clean_and_renumber_kept (lines : List String) (st : ScriptStats)
    (cfg : MergeConfig) :
    (clean_and_renumber lines st cfg).2.comments_kept =
      (cnrGo cfg lines cfg.start_n st).2.comments_kept := rfl

/-- The removed-comments counter survives the final total update. -/
theorem clean_and_renumber_removed (lines : List String) (st : ScriptStats)
    (cfg : MergeConfig) :
    (clean_and_renumber lines st cfg).2.comments_removed =
      (cnrGo cfg lines cfg.start_n st).2.comments_removed := rfl

/-- C5: a comment line survives normalization, incrementing the kept
counter, exactly when keep-all-comments is set or it is important (one of
the thirteen case-insensitive openers); otherwise it is dropped and the
removed counter is incremented.  The surviving comment lines are exactly
the passing input comments, verbatim and in order. -/
theorem comment_filtering_exact (lines : List String) (st : ScriptStats)
    (cfg : MergeConfig) :
    (clean_and_renumber lines st cfg).1.filter (fun l => isCommentLine l) =
      lines.filter
        (fun l => isCommentLine l && (cfg.keep_all_comments || is_important_comment l)) ∧
    (clean_and_renumber lines st cfg).2.comments_kept =
      st.comments_kept +
        lines.countP
          (fun l => isCommentLine l && (cfg.keep_all_comments || is_important_comment l)) ∧
    (clean_and_renumber lines st cfg).2.comments_removed =
      st.comments_removed +
        lines.countP
          (fun l => isCommentLine l && !(cfg.keep_all_comments || is_important_comment l)) := by
  refine ⟨?_, ?_, ?_⟩
  · rw [clean_and_renumber_fst]
    exact cnrGo_comments cfg lines cfg.start_n st
  · rw [clean_and_renumber_kept]
    exact cnrGo_kept cfg lines cfg.start_n st
  · rw [clean_and_renumber_removed]
    exact cnrGo_removed cfg lines cfg.start_n st

/-- The normalizer regex fails when the residue head is not the letter T. -/
theorem matchTCafterN_res_false (r0 : List Char) (c : Char) (r3 : List Char)
    (hres : (r0.dropWhile isDigitChar).dropWhile isPyWs = c :: r3) (hc : c ≠ 'T') :
    matchTCafterN r0 = false := by
  unfold matchTCafterN
  rw [hres]
  simp [hc]

/-- The normalizer regex fails when the residue is empty. -/
theorem matchTCafterN_res_nil (r0 : List Char)
    (hres : (r0.dropWhile isDigitChar).dropWhile isPyWs = []) :
    matchTCafterN r0 = false := by
  unfold matchTCafterN
  rw [hres]

/-- A line passing the renumbering guard lstrips to a letter N head. -/
theorem Nstart_lstrip (l : String) (h : lstripStartsN l = true) :
    ∃ r1, lstripChars l.data = 'N' :: r1 := by
  unfold lstripStartsN at h
  rcases hs : lstripChars l.data with _ | ⟨c, rest⟩
  · rw [hs] at h
    exact absurd h (by simp)
  · rw [hs] at h
    simp only [decide_eq_true_eq] at h
    subst h
    exact ⟨rest, rfl⟩

/-- A sequenced-instruction in the claim sense has a digit after the N. -/
theorem spec_seq_digit (l : String) (r1 : List Char)
    (h : lstripChars l.data = 'N' :: r1) (hs : spec_sequenced_instruction l = true) :
    ∃ c2 rest, r1 = c2 :: rest ∧ isDigitChar c2 = true := by
  unfold spec_sequenced_instruction at hs
  rw [h] at hs
  rcases r1 with _ | ⟨c2, rest⟩
  · exact absurd hs (by simp)
  · simp only [Bool.and_eq_true] at hs
    exact ⟨c2, rest, rfl, hs.2⟩

/-- dropWhile on whitespace steps over a leading blank. -/
theorem dropWhile_pyws_space (x : List Char) :
    List.dropWhile isPyWs (' ' :: x) = List.dropWhile isPyWs x := by
  rw [List.dropWhile_cons, if_pos (show isPyWs ' ' = true by decide)]

/-- Renumbering preserves the toolchange classification of a line whose
leading N is followed by a digit whenever it is a toolchange; lines with
no digit after the N are never toolchanges after renumbering, and such
lines are excluded by the goodness hypothesis. -/
theorem isToolchange_mkRenumbered (n : Nat) (l : String)
    (hN : lstripStartsN l = true)
    (hgood : isToolchange l = true → spec_sequenced_instruction l = true) :
    isToolchange (mkRenumbered n l) = isToolchange l := by
  obtain ⟨r1, hr1⟩ := Nstart_lstrip l hN
  have hmk := lstrip_mkRenumbered n l
  unfold isToolchange matchTCcore
  rw [hmk, hr1, dropN_cons_N]
  simp only [List.cons_append]
  rw [dropN_cons_N]
  rcases r1 with _ | ⟨c2, rest⟩
  · have hL : ((natReprData n ++ ' ' :: stripSeqNum ('N' :: [])).dropWhile
        isDigitChar).dropWhile isPyWs = 'N' :: [] := by
      rw [show stripSeqNum ('N' :: []) = 'N' :: [] from rfl,
        dropWhile_prefix_stop isDigitChar (natReprData n) ' ' ('N' :: [])
          (natReprData_digits n) (by decide)]
      decide
    rw [matchTCafterN_res_false _ 'N' [] hL (by decide),
      matchTCafterN_res_nil [] (by rfl)]
  · by_cases hd : isDigitChar c2 = true
    · have hss : stripSeqNum ('N' :: c2 :: rest) =
          ((c2 :: rest).dropWhile isDigitChar).dropWhile isSpTab := by
        simp [stripSeqNum, hd]
      apply matchTCafterN_congr
      rw [hss, dropWhile_prefix_stop isDigitChar (natReprData n) ' '
        (((c2 :: rest).dropWhile isDigitChar).dropWhile isSpTab)
        (natReprData_digits n) (by decide)]
      rw [dropWhile_pyws_space, dropWhile_sptab_pyws]
    · simp only [Bool.not_eq_true] at hd
      have hss : stripSeqNum ('N' :: c2 :: rest) = 'N' :: c2 :: rest := by
        simp [stripSeqNum, hd]
      have hRHS : matchTCafterN (c2 :: rest) = false := by
        by_contra hne
        simp only [Bool.not_eq_false] at hne
        have hTC : isToolchange l = true := by
          unfold isToolchange matchTCcore
          rw [hr1, dropN_cons_N]
          exact hne
        obtain ⟨c3, rest3, heq, hd3⟩ := spec_seq_digit l (c2 :: rest) hr1 (hgood hTC)
        rw [List.cons.injEq] at heq
        rw [heq.1] at hd
        rw [hd3] at hd
        exact absurd hd (by decide)
      have hL : ((natReprData n ++ ' ' :: stripSeqNum ('N' :: c2 :: rest)).dropWhile
          isDigitChar).dropWhile isPyWs = 'N' :: c2 :: rest := by
        rw [hss, dropWhile_prefix_stop isDigitChar (natReprData n) ' '
          ('N' :: c2 :: rest) (natReprData_digits n) (by decide),
          dropWhile_pyws_space, List.dropWhile_cons,
          if_neg (show ¬ (isPyWs 'N' = true) by decide)]
      rw [matchTCafterN_res_false _ 'N' (c2 :: rest) hL (by decide), hRHS]

/-- Comment status makes the comment guard redundant in the toolchange
count predicate. -/
theorem tc_pred_simp (l : String) :
    (!(isCommentLine l) && isToolchange l) = isToolchange l := by
  by_cases hc : isCommentLine l = true
  · simp [hc, not_toolchange_of_comment l hc]
  · simp only [Bool.not_eq_true] at hc
    simp [hc]

/-- The toolchange counter of the normalizer loop counts the toolchange
lines of the stream. -/
theorem cnrGo_toolchanges (cfg : MergeConfig) :
    ∀ (lines : List String) (n : Nat) (st : ScriptStats),
    (cnrGo cfg lines n st).2.toolchanges =
      st.toolchanges + lines.countP (fun l => isToolchange l) := by
  intro lines
  induction lines with
  | nil => intro n st; simp [cnrGo]
  | cons l ls ih =>
    intro n st
    rw [cnrGo_cons_snd, ih, processLine_stats, List.countP_cons]
    dsimp only
    rw [tc_pred_simp]
    by_cases hl : isToolchange l = true
    · rw [if_pos hl]
      omega
    · rw [if_neg hl]
      omega

/-- The inserted-calls counter of the normalizer loop: one per toolchange
when the option is on, zero when it is off. -/
theorem cnrGo_tccalls (cfg : MergeConfig) :
    ∀ (lines : List String) (n : Nat) (st : ScriptStats),
    (cnrGo cfg lines n st).2.toolchange_calls =
      st.toolchange_calls +
        (if cfg.insert_toolchange_call then lines.countP (fun l => isToolchange l)
         else 0) := by
  intro lines
  induction lines with
  | nil => intro n st; simp [cnrGo]
  | cons l ls ih =>
    intro n st
    rw [cnrGo_cons_snd, ih, processLine_stats]
    dsimp only
    by_cases hi : cfg.insert_toolchange_call = true
    · rw [if_pos hi, if_pos hi, List.countP_cons]
      simp only [hi, Bool.true_and]
      rw [tc_pred_simp]
      by_cases hl : isToolchange l = true
      · rw [if_pos hl]
        omega
      · rw [if_neg hl]
        omega
    · have hi2 : cfg.insert_toolchange_call = false := by
        simpa using hi
      rw [if_neg hi, if_neg hi]
      simp only [hi2, Bool.false_and, Bool.and_false]
      simp

/-- A renumbered line never equals the inserted call line. -/
theorem mkRenumbered_ne_callLine (n : Nat) (l : String) (sub : String) :
    mkRenumbered n l ≠ callLine sub := by
  intro he
  have hd := congrArg String.data he
  rw [mkRenumbered_data, callLine_data] at hd
  simp only [List.cons_append, List.nil_append, List.cons.injEq] at hd
  exact absurd hd.1 (by decide)

/-- A comment line never equals the inserted call line. -/
theorem comment_ne_callLine (l : String) (sub : String) (h : isCommentLine l = true) :
    l ≠ callLine sub := by
  intro he
  rw [he] at h
  rw [callLine_not_comment sub] at h
  exact absurd h (by decide)

/-- The call lines contributed by one iteration of the normalizer. -/
theorem processLine_chunk_callcount (cfg : MergeConfig) (st : ScriptStats) (n : Nat)
    (l : String) (hne : l ≠ callLine cfg.toolchange_subroutine) :
    (processLine cfg st n l).1.countP
        (fun x => decide (x = callLine cfg.toolchange_subroutine)) =
      if !(isCommentLine l) && (cfg.insert_toolchange_call && isToolchange l)
      then 1 else 0 := by
  rw [processLine_chunk]
  by_cases hc : isCommentLine l
  · by_cases hk : (cfg.keep_all_comments || is_important_comment l) = true
    · simp [hc, hk, List.countP_cons, hne]
    · simp only [Bool.not_eq_true] at hk
      simp [hc, hk]
  · simp only [Bool.not_eq_true] at hc
    by_cases hi : (cfg.insert_toolchange_call && isToolchange l) = true
    · by_cases hr : (cfg.renumber && lstripStartsN l) = true
      · simp [hc, hi, hr, List.countP_cons, mkRenumbered_ne_callLine]
      · simp only [Bool.not_eq_true] at hr
        simp [hc, hi, hr, List.countP_cons, hne]
    · simp only [Bool.not_eq_true] at hi
      by_cases hr : (cfg.renumber && lstripStartsN l) = true
      · simp [hc, hi, hr, List.countP_cons, mkRenumbered_ne_callLine]
      · simp only [Bool.not_eq_true] at hr
        simp [hc, hi, hr, List.countP_cons, hne]

/-- The number of call lines in the normalizer output: one per toolchange
when the option is on, none otherwise, provided no input line equals the
call line literal. -/
theorem cnrGo_callcount (cfg : MergeConfig) :
    ∀ (lines : List String) (n : Nat) (st : ScriptStats),
    (∀ l ∈ lines, l ≠ callLine cfg.toolchange_subroutine) →
    (cnrGo cfg lines n st).1.countP
        (fun x => decide (x = callLine cfg.toolchange_subroutine)) =
      lines.countP
        (fun l => !(isCommentLine l) && (cfg.insert_toolchange_call && isToolchange l)) := by
  intro lines
  induction lines with
  | nil => intro n st hne; simp [cnrGo]
  | cons l ls ih =>
    intro n st hne
    rw [cnrGo_cons_fst, List.countP_append,
      processLine_chunk_callcount cfg st n l (hne l (by simp)),
      ih _ _ (fun x hx => hne x (by simp [hx])), List.countP_cons]
    by_cases hl : (!(isCommentLine l) && (cfg.insert_toolchange_call && isToolchange l)) = true
    · rw [if_pos hl]
      omega
    · rw [if_neg hl]
      omega

/-- Adjacency transfer: prepending a non-call line preserves the
call-followed-by-toolchange property. -/
theorem adj_cons (sub : String) (a : String) (rest : List String)
    (ha : a ≠ callLine sub)
    (hrest : ∀ pre post, rest = pre ++ callLine sub :: post →
      ∃ x xs, post = x :: xs ∧ isToolchange x = true) :
    ∀ pre post, a :: rest = pre ++ callLine sub :: post →
      ∃ x xs, post = x :: xs ∧ isToolchange x = true := by
  intro pre post heq
  rcases pre with _ | ⟨p, pre2⟩
  · rw [List.nil_append, List.cons.injEq] at heq
    exact absurd heq.1 ha
  · rw [List.cons_append, List.cons.injEq] at heq
    exact hrest pre2 post heq.2

/-- Adjacency transfer: prepending a call line followed by a toolchange
preserves the call-followed-by-toolchange property. -/
theorem adj_call_pair (sub : String) (e : String) (rest : List String)
    (he : isToolchange e = true)
    (hrest : ∀ pre post, rest = pre ++ callLine sub :: post →
      ∃ x xs, post = x :: xs ∧ isToolchange x = true) :
    ∀ pre post, callLine sub :: e :: rest = pre ++ callLine sub :: post →
      ∃ x xs, post = x :: xs ∧ isToolchange x = true := by
  intro pre post heq
  rcases pre with _ | ⟨p, pre2⟩
  · rw [List.nil_append, List.cons.injEq] at heq
    exact ⟨e, rest, heq.2.symm, he⟩
  · rw [List.cons_append, List.cons.injEq] at heq
    rcases pre2 with _ | ⟨q, pre3⟩
    · rw [List.nil_append, List.cons.injEq] at heq
      have h2 : e = callLine sub := heq.2.1
      rw [h2, callLine_not_toolchange sub] at he
      exact absurd he (by decide)
    · rw [List.cons_append, List.cons.injEq] at heq
      exact hrest pre3 post heq.2.2

/-- Every call line in the normalizer output is immediately followed by a
toolchange line, provided no input line equals the call line literal and
every toolchange with a nondigit after its N is absent. -/
theorem cnrGo_adjacency (cfg : MergeConfig) :
    ∀ (lines : List String) (n : Nat) (st : ScriptStats),
    (∀ l ∈ lines, l ≠ callLine cfg.toolchange_subroutine) →
    (∀ l ∈ lines, isToolchange l = true → lstripStartsN l = true →
      spec_sequenced_instruction l = true) →
    ∀ pre post,
      (cnrGo cfg lines n st).1 = pre ++ callLine cfg.toolchange_subroutine :: post →
      ∃ x xs, post = x :: xs ∧ isToolchange x = true := by
  intro lines
  induction lines with
  | nil =>
    intro n st hne hgood pre post heq
    rw [show (cnrGo cfg [] n st).1 = [] from rfl] at heq
    rcases pre with _ | ⟨p, pre2⟩ <;> simp at heq
  | cons l ls ih =>
    intro n st hne hgood
    have hne1 : l ≠ callLine cfg.toolchange_subroutine := hne l (by simp)
    have ihx := ih (processLine cfg st n l).2.1 (processLine cfg st n l).2.2
      (fun x hx => hne x (by simp [hx]))
      (fun x hx h1 h2 => hgood x (by simp [hx]) h1 h2)
    rw [cnrGo_cons_fst, processLine_chunk]
    by_cases hc : isCommentLine l
    · by_cases hk : (cfg.keep_all_comments || is_important_comment l) = true
      · rw [if_pos hc, if_pos hk]
        intro pre post heq
        rw [List.singleton_append] at heq
        exact adj_cons cfg.toolchange_subroutine l _ hne1 ihx pre post heq
      · simp only [Bool.not_eq_true] at hk
        rw [if_pos hc, hk]
        intro pre post heq
        rw [if_neg (by decide), List.nil_append] at heq
        exact ihx pre post heq
    · rw [if_neg hc]
      by_cases hi : (cfg.insert_toolchange_call && isToolchange l) = true
      · rw [if_pos hi]
        have hTC : isToolchange l = true := (Bool.and_eq_true _ _ |>.mp hi).2
        by_cases hr : (cfg.renumber && lstripStartsN l) = true
        · rw [if_pos hr]
          have hN : lstripStartsN l = true := (Bool.and_eq_true _ _ |>.mp hr).2
          have hemit : isToolchange (mkRenumbered n l) = true := by
            rw [isToolchange_mkRenumbered n l hN
              (fun h => hgood l (by simp) h hN)]
            exact hTC
          intro pre post heq
          exact adj_call_pair cfg.toolchange_subroutine (mkRenumbered n l) _
            hemit ihx pre post heq
        · rw [if_neg hr]
          intro pre post heq
          exact adj_call_pair cfg.toolchange_subroutine l _ hTC ihx pre post heq
      · simp only [Bool.not_eq_true] at hi
        rw [hi]
        intro pre post heq
        rw [if_neg (by decide), List.nil_append] at heq
        by_cases hr : (cfg.renumber && lstripStartsN l) = true
        · rw [if_pos hr, List.singleton_append] at heq
          exact adj_cons cfg.toolchange_subroutine (mkRenumbered n l) _
            (mkRenumbered_ne_callLine n l cfg.toolchange_subroutine) ihx pre post heq
        · rw [if_neg hr, List.singleton_append] at heq
          exact adj_cons cfg.toolchange_subroutine l _ hne1 ihx pre post heq

/-- The toolchange counter survives the final total update. -/
theorem clean_and_renumber_toolchanges (lines : List String) (st : ScriptStats)
    (cfg : MergeConfig) :
    (clean_and_renumber lines st cfg).2.toolchanges =
      (cnrGo cfg lines cfg.start_n st).2.toolchanges := rfl

/-- The inserted-calls counter survives the final total update. -/
theorem clean_and_renumber_tccalls (lines : List String) (st : ScriptStats)
    (cfg : MergeConfig) :
    (clean_and_renumber lines st cfg).2.toolchange_calls =
      (cnrGo cfg lines cfg.start_n st).2.toolchange_calls := rfl

/-- C6: during normalization, every toolchange line increments the
toolchange counter; when call insertion is enabled exactly one synthetic
call line per toolchange is emitted, immediately before the (possibly
renumbered) toolchange line, incrementing the insertion counter; when
disabled no call line is emitted.  The side conditions only exclude input
lines spelled exactly like the synthetic call line and toolchanges whose
letter N is not followed by a digit. -/
theorem toolchange_call_insertion (lines : List String) (st : ScriptStats)
    (cfg : MergeConfig)
    (h1 : ∀ l ∈ lines, l ≠ callLine cfg.toolchange_subroutine)
    (h2 : ∀ l ∈ lines, isToolchange l = true → lstripStartsN l = true →
      spec_sequenced_instruction l = true) :
    (clean_and_renumber lines st cfg).2.toolchanges =
      st.toolchanges + lines.countP (fun l => isToolchange l) ∧
    (clean_and_renumber lines st cfg).2.toolchange_calls =
      st.toolchange_calls +
        (if cfg.insert_toolchange_call then lines.countP (fun l => isToolchange l)
         else 0) ∧
    (clean_and_renumber lines st cfg).1.countP
        (fun x => decide (x = callLine cfg.toolchange_subroutine)) =
      (if cfg.insert_toolchange_call then lines.countP (fun l => isToolchange l)
       else 0) ∧
    ∀ pre post,
      (clean_and_renumber lines st cfg).1 =
        pre ++ callLine cfg.toolchange_subroutine :: post →
      ∃ x xs, post = x :: xs ∧ isToolchange x = true := by
  refine ⟨?_, ?_, ?_, ?_⟩
  · rw [clean_and_renumber_toolchanges]
    exact cnrGo_toolchanges cfg lines cfg.start_n st
  · rw [clean_and_renumber_tccalls]
    exact cnrGo_tccalls cfg lines cfg.start_n st
  · rw [clean_and_renumber_fst, cnrGo_callcount cfg lines cfg.start_n st h1]
    by_cases hi : cfg.insert_toolchange_call = true
    · rw [if_pos hi]
      congr 1
      funext l
      rw [hi]
      simp only [Bool.true_and]
      exact tc_pred_simp l
    · have hi2 : cfg.insert_toolchange_call = false := by simpa using hi
      rw [if_neg hi]
      simp [hi2]
  · intro pre post heq
    rw [clean_and_renumber_fst] at heq
    exact cnrGo_adjacency cfg lines cfg.start_n st h1 h2 pre post heq

/-- Witness for the toolchange-call insertion claim at a concrete body
with the option enabled. -/
theorem toolchange_call_insertion_witness :
    (clean_and_renumber ["N5 T2 M6\n", "X1\n"] {}
        { insert_toolchange_call := true }).2.toolchanges = 1 ∧
    (clean_and_renumber ["N5 T2 M6\n", "X1\n"] {}
        { insert_toolchange_call := true }).2.toolchange_calls = 1 ∧
    (clean_and_renumber ["N5 T2 M6\n", "X1\n"] {}
        { insert_toolchange_call := true }).1.countP
        (fun x => decide (x = callLine "toolchange")) = 1 := by
  have h := toolchange_call_insertion ["N5 T2 M6\n", "X1\n"] {}
    { insert_toolchange_call := true } (by decide) (by decide)
  exact ⟨h.1.trans (by decide), h.2.1.trans (by decide), h.2.2.1.trans (by decide)⟩

/-- A comment line never matches the anchored sequence-numbered
toolchange regex either. -/
theorem matchSeqToolchange_of_comment (l : String) (h : isCommentLine l = true) :
    matchSeqToolchange l.data = false := by
  obtain ⟨t, ht⟩ := comment_lstrip l h
  rcases hd : l.data with _ | ⟨c, rest⟩
  · rfl
  · rw [hd] at ht
    by_cases hw : isPyWs c = true
    · have hcN : c ≠ 'N' := by
        intro hce
        rw [hce] at hw
        exact absurd hw (by decide)
      simp [matchSeqToolchange, hcN]
    · simp only [Bool.not_eq_true] at hw
      rw [lstrip_cons c rest hw, List.cons.injEq] at ht
      rw [ht.1]
      simp [matchSeqToolchange]

/-- C9 counterexample: a comment line containing the program-end code is
treated as a terminator by extract_body, which stops at it, so the body
keeps only the first comment instead of all three lines. -/
theorem comment_m30_stops_body_cex :
    isCommentLine "(note M30)\n" = true ∧
      extract_body ["(drill a)\n", "(note M30)\n", "G1 X0\n"] = ["(drill a)\n"] := by
  decide

/-- C9 amended: a comment line is never classified as a toolchange or a
sequenced-instruction anywhere in the pipeline (neither by the normalizer
regex, the renumbering guard, nor the anchored extractor regex), but the
body-extraction terminator test looks for M30 anywhere in any line, so a
comment containing M30 is a terminator and body extraction stops at it. -/
theorem comment_priority_except_m30 (l r : String)
    (h : isCommentLine l = true) (hr : hasM30 r.data = true) :
    isToolchange l = false ∧ lstripStartsN l = false ∧
      matchSeqToolchange l.data = false ∧ bodyTerminatorLine r = true := by
  refine ⟨not_toolchange_of_comment l h, not_Nstart_of_comment l h,
    matchSeqToolchange_of_comment l h, ?_⟩
  unfold bodyTerminatorLine
  rw [hr]
  simp

/-- Witness for the amended comment-priority claim on concrete lines. -/
theorem comment_priority_except_m30_witness :
    isCommentLine "(x T1 M6)\n" = true ∧ hasM30 "(M30)\n".data = true ∧
      isToolchange "(x T1 M6)\n" = false ∧ lstripStartsN "(x T1 M6)\n" = false ∧
      matchSeqToolchange "(x T1 M6)\n".data = false ∧
      bodyTerminatorLine "(M30)\n" = true := by
  have h := comment_priority_except_m30 "(x T1 M6)\n" "(M30)\n" (by decide) (by decide)
  exact ⟨by decide, by decide, h.1, h.2.1, h.2.2.1, h.2.2.2⟩

/-- Splitting into lines never produces an empty list on nonempty input. -/
theorem linesOf_ne_nil (cs : List Char) (h : cs ≠ []) : linesOf cs ≠ [] := by
  rcases cs with _ | ⟨c, cs2⟩
  · exact absurd rfl h
  · unfold linesOf
    by_cases hc : c = '\n'
    · simp [hc]
    · simp only [hc, if_false]
      rcases linesOf cs2 with _ | ⟨l, ls⟩ <;> simp

/-- One line split step on a newline head. -/
theorem linesOf_cons_nl (x : List Char) :
    linesOf ('\n' :: x) = ['\n'] :: linesOf x := by
  simp [linesOf]

/-- One line split step on a non-newline head. -/
theorem linesOf_cons_other (c : Char) (x : List Char) (h : ¬ c = '\n') :
    linesOf (c :: x) =
      match linesOf x with
      | [] => [[c]]
      | l :: ls => (c :: l) :: ls := by
  simp [linesOf, h]

/-- Splitting distributes over concatenation at a newline boundary. -/
theorem linesOf_append_nl (u : List Char) :
    ∀ v : List Char, (∃ w, u = w ++ ['\n']) →
    linesOf (u ++ v) = linesOf u ++ linesOf v := by
  induction u with
  | nil =>
    intro v h
    obtain ⟨w, hw⟩ := h
    exact absurd hw.symm (by simp)
  | cons c cs ih =>
    intro v h
    obtain ⟨w, hw⟩ := h
    rcases w with _ | ⟨a, w2⟩
    · rw [List.nil_append] at hw
      rw [List.cons.injEq] at hw
      obtain ⟨hc, hcs⟩ := hw
      subst hc
      subst hcs
      simp [linesOf]
    · rw [List.cons_append, List.cons.injEq] at hw
      obtain ⟨hc, hcs⟩ := hw
      subst hc
      have hcs_ne : cs ≠ [] := by
        rw [hcs]
        simp
      have ihx := ih v ⟨w2, hcs⟩
      by_cases hnl : c = '\n'
      · subst hnl
        rw [List.cons_append, linesOf_cons_nl, linesOf_cons_nl, ihx, List.cons_append]
      · rcases hsplit : linesOf cs with _ | ⟨l0, ls0⟩
        · exact absurd hsplit (linesOf_ne_nil cs hcs_ne)
        · rw [List.cons_append, linesOf_cons_other c (cs ++ v) hnl,
            linesOf_cons_other c cs hnl, ihx, hsplit]
          simp

/-- A terminated chunk ends with a newline. -/
theorem termChunk_ends (l : List Char) (h : termChunk l = true) :
    ∃ w, l = w ++ ['\n'] := by
  induction l with
  | nil => exact absurd h (by simp [termChunk])
  | cons c rest ih =>
    unfold termChunk at h
    by_cases hc : c = '\n'
    · subst hc
      rw [if_pos rfl] at h
      have : rest = [] := by
        rcases rest with _ | ⟨x, xs⟩
        · rfl
        · exact absurd h (by simp)
      subst this
      exact ⟨[], rfl⟩
    · rw [if_neg hc] at h
      obtain ⟨w, hw⟩ := ih h
      exact ⟨c :: w, by rw [hw]; rfl⟩

/-- A terminated chunk is one line of its own. -/
theorem linesOf_termChunk (l : List Char) (h : termChunk l = true) :
    linesOf l = [l] := by
  induction l with
  | nil => exact absurd h (by simp [termChunk])
  | cons c rest ih =>
    unfold termChunk at h
    by_cases hc : c = '\n'
    · subst hc
      rw [if_pos rfl] at h
      have : rest = [] := by
        rcases rest with _ | ⟨x, xs⟩
        · rfl
        · exact absurd h (by simp)
      subst this
      rfl
    · rw [if_neg hc] at h
      unfold linesOf
      simp only [hc, if_false]
      rw [ih h]

/-- Splitting the concatenation of terminated chunks recovers them. -/
theorem linesOf_flatten (ts : List (List Char))
    (h : ∀ t ∈ ts, termChunk t = true) : linesOf ts.flatten = ts := by
  induction ts with
  | nil => rfl
  | cons t ts2 ih =>
    rw [List.flatten_cons,
      linesOf_append_nl t ts2.flatten (termChunk_ends t (h t (by simp))),
      linesOf_termChunk t (h t (by simp)), ih (fun x hx => h x (by simp [hx]))]
    rfl

/-- readlines distributes over concatenation at a newline boundary. -/
theorem readlines_append_nl (a b : String) (h : ∃ w, a.data = w ++ ['\n']) :
    readlines (a ++ b) = readlines a ++ readlines b := by
  unfold readlines
  rw [String.data_append, linesOf_append_nl a.data b.data h, List.map_append]

/-- Appending a newline produces data ending with a newline. -/
theorem data_append_nl (s : String) : ∃ w, (s ++ "\n").data = w ++ ['\n'] :=
  ⟨s.data, by rw [String.data_append]⟩

/-- The read-back output of a run splits into its leading part and the
four closing lines. -/
theorem readlines_mainContent_decomp (files : List String) (r k t : Bool) :
    readlines (mainContent files r k t) =
      readlines (String.join (mainHeader files) ++ "\n" ++
        String.join (preStats files r k t).1 ++ "\n") ++
      ["M5\n", "G53 G0 Z0.\n", "M30\n", "%\n"] := by
  unfold mainContent outputContent
  rw [readlines_append_nl _ closingBlock
    (data_append_nl (String.join (mainHeader files) ++ "\n" ++
      String.join (preStats files r k t).1))]
  congr 1

/-- C1: regardless of the input programs and flags, the read-back output
of a run ends with exactly the four fixed closing lines M5, G53 G0 Z0.,
M30 and the percent sign, in that order; the block is appended by the
assembler once, not taken from any source file. -/
theorem mainContent_ends_with_closing_block (files : List String) (r k t : Bool) :
    ∃ ls, readlines (mainContent files r k t) =
      ls ++ ["M5\n", "G53 G0 Z0.\n", "M30\n", "%\n"] :=
  ⟨_, readlines_mainContent_decomp files r k t⟩

/-- The last element of an append with a nonempty right part. -/
theorem getLast?_append_right (pre suf : List String) (h : suf ≠ []) :
    (pre ++ suf).getLast? = suf.getLast? := by
  induction pre with
  | nil => rfl
  | cons x xs ih =>
    rw [List.cons_append]
    have h2 : xs ++ suf ≠ [] := by
      intro he
      exact h (List.append_eq_nil.mp he).2
    rcases hx : xs ++ suf with _ | ⟨y, ys⟩
    · exact absurd hx h2
    · rw [List.getLast?_cons_cons, ← hx, ih]

/-- Evaluation of validate_output through its last line. -/
theorem validate_output_eq (out : List String) (st : ScriptStats) (last : String)
    (h : out.getLast? = some last) :
    validate_output out st =
      some (validatorErrors out st last,
        { st with validation_errors := validatorErrors out st last }) := by
  unfold validate_output
  rw [h]

/-- Membership in a gated singleton, enabled branch. -/
theorem mem_ite_cons {c : Prop} [Decidable c] (s msg : String) :
    (msg ∈ (if c then ([s] : List String) else [])) ↔ c ∧ msg = s := by
  by_cases hc : c
  · rw [if_pos hc]
    simp [hc]
  · rw [if_neg hc]
    simp [hc]

/-- Membership in a gated singleton, disabled branch. -/
theorem mem_ite_nil {c : Prop} [Decidable c] (s msg : String) :
    (msg ∈ (if c then ([] : List String) else [s])) ↔ ¬ c ∧ msg = s := by
  by_cases hc : c
  · rw [if_pos hc]
    simp [hc]
  · rw [if_neg hc]
    simp [hc]

/-- The validator error list contains a message exactly when one of the
four gated diagnostics produces it. -/
theorem mem_validatorErrors (out : List String) (st : ScriptStats) (last : String)
    (msg : String) :
    msg ∈ validatorErrors out st last ↔
      ((¬ stripChars last.data = ['%']) ∧ msg = "Output does not end with %") ∨
      (out.countP (fun l => hasM30 l.data) = 0 ∧
        msg = "No M30 found in output (should end program)") ∨
      (1 < out.countP (fun l => hasM30 l.data) ∧
        msg = "Multiple M30 lines found in output") ∨
      (toolchangeRecount out ≠ st.toolchanges ∧
        msg = mismatchMsg (toolchangeRecount out) st.toolchanges) := by
  unfold validatorErrors
  simp only [List.mem_append, mem_ite_cons, mem_ite_nil]
  tauto

/-- The mismatch message starts with the letter I. -/
theorem mismatchMsg_head (a b : Nat) : (mismatchMsg a b).data.head? = some 'I' := rfl

/-- No string with a different first letter is the mismatch message. -/
theorem ne_mismatchMsg (a b : Nat) (s : String) (hs : s.data.head? ≠ some 'I') :
    s ≠ mismatchMsg a b := by
  intro he
  apply hs
  rw [he]
  exact mismatchMsg_head a b

/-- The read-back output always ends with the percent line. -/
theorem mainContent_getLast (files : List String) (r k t : Bool) :
    (readlines (mainContent files r k t)).getLast? = some "%\n" := by
  rw [readlines_mainContent_decomp files r k t,
    getLast?_append_right _ _ (by simp)]
  rfl

/-- The read-back output always contains the closing M30 line. -/
theorem mainContent_mem_m30 (files : List String) (r k t : Bool) :
    "M30\n" ∈ readlines (mainContent files r k t) := by
  rw [readlines_mainContent_decomp files r k t]
  simp

/-- C10: the output file read back by the validator is nonempty, its last
line is the percent line, it contains a program-end line, so the last-line
access succeeds and the two end-of-program error branches are not taken. -/
theorem validator_end_checks_safe (files : List String) (r k t : Bool) :
    readlines (mainContent files r k t) ≠ [] ∧
    (readlines (mainContent files r k t)).getLast? = some "%\n" ∧
    (∃ l ∈ readlines (mainContent files r k t), hasM30 l.data = true) ∧
    ∃ errs st2,
      validate_output (readlines (mainContent files r k t))
        (preStats files r k t).2 = some (errs, st2) ∧
      "Output does not end with %" ∉ errs ∧
      "No M30 found in output (should end program)" ∉ errs := by
  have hlast := mainContent_getLast files r k t
  have hm30 := mainContent_mem_m30 files r k t
  have hcount : 0 < (readlines (mainContent files r k t)).countP
      (fun l => hasM30 l.data) :=
    List.countP_pos_iff.mpr ⟨"M30\n", hm30, by decide⟩
  have hnot1 : "Output does not end with %" ∉
      validatorErrors (readlines (mainContent files r k t))
        (preStats files r k t).2 "%\n" := by
    intro hmem
    rw [mem_validatorErrors] at hmem
    rcases hmem with ⟨hc, _⟩ | ⟨_, he⟩ | ⟨_, he⟩ | ⟨_, he⟩
    · exact hc (by decide)
    · exact absurd he (by decide)
    · exact absurd he (by decide)
    · exact absurd he (ne_mismatchMsg _ _ _ (by decide))
  have hnot2 : "No M30 found in output (should end program)" ∉
      validatorErrors (readlines (mainContent files r k t))
        (preStats files r k t).2 "%\n" := by
    intro hmem
    rw [mem_validatorErrors] at hmem
    rcases hmem with ⟨_, he⟩ | ⟨hc, _⟩ | ⟨_, he⟩ | ⟨_, he⟩
    · exact absurd he (by decide)
    · omega
    · exact absurd he (by decide)
    · exact absurd he (ne_mismatchMsg _ _ _ (by decide))
  refine ⟨?_, hlast, ⟨"M30\n", hm30, by decide⟩,
    ⟨_, _, validate_output_eq _ _ _ hlast, hnot1, hnot2⟩⟩
  rw [readlines_mainContent_decomp files r k t]
  simp

/-- The last non-blank line of the read-back output is the percent line. -/
theorem mainContent_lastNonBlank (files : List String) (r k t : Bool) :
    lastNonBlank? (readlines (mainContent files r k t)) = some "%\n" := by
  unfold lastNonBlank?
  rw [readlines_mainContent_decomp files r k t, List.filter_append,
    show List.filter (fun l => !(stripChars l.data).isEmpty)
        ["M5\n", "G53 G0 Z0.\n", "M30\n", "%\n"] =
      ["M5\n", "G53 G0 Z0.\n", "M30\n", "%\n"] from by decide,
    getLast?_append_right _ _ (by simp)]
  rfl

/-- C7: on the assembled output the validator returns its error list,
stores it in the statistics, reports the missing program-end diagnostic
exactly when no line contains M30, the duplicate diagnostic exactly when
more than one line contains M30, and the final-line diagnostic exactly
when the last non-blank line does not strip to the percent sign; it never
fails. -/
theorem validator_report_biconditionals (files : List String) (r k t : Bool) :
    ∃ errs st2,
      validate_output (readlines (mainContent files r k t))
        (preStats files r k t).2 = some (errs, st2) ∧
      st2.validation_errors = errs ∧
      (("No M30 found in output (should end program)" ∈ errs) ↔
        (readlines (mainContent files r k t)).countP (fun l => hasM30 l.data) = 0) ∧
      (("Multiple M30 lines found in output" ∈ errs) ↔
        1 < (readlines (mainContent files r k t)).countP (fun l => hasM30 l.data)) ∧
      (("Output does not end with %" ∈ errs) ↔
        ¬ ∃ x, lastNonBlank? (readlines (mainContent files r k t)) = some x ∧
          stripChars x.data = ['%']) := by
  have hlast := mainContent_getLast files r k t
  refine ⟨_, _, validate_output_eq _ _ _ hlast, rfl, ?_, ?_, ?_⟩
  · rw [mem_validatorErrors]
    constructor
    · intro hmem
      rcases hmem with ⟨_, he⟩ | ⟨hc, _⟩ | ⟨_, he⟩ | ⟨_, he⟩
      · exact absurd he (by decide)
      · exact hc
      · exact absurd he (by decide)
      · exact absurd he (ne_mismatchMsg _ _ _ (by decide))
    · intro hc
      exact Or.inr (Or.inl ⟨hc, rfl⟩)
  · rw [mem_validatorErrors]
    constructor
    · intro hmem
      rcases hmem with ⟨_, he⟩ | ⟨_, he⟩ | ⟨hc, _⟩ | ⟨_, he⟩
      · exact absurd he (by decide)
      · exact absurd he (by decide)
      · exact hc
      · exact absurd he (ne_mismatchMsg _ _ _ (by decide))
    · intro hc
      exact Or.inr (Or.inr (Or.inl ⟨hc, rfl⟩))
  · apply iff_of_false
    · intro hmem
      rw [mem_validatorErrors] at hmem
      rcases hmem with ⟨hc, _⟩ | ⟨_, he⟩ | ⟨_, he⟩ | ⟨_, he⟩
      · exact hc (by decide)
      · exact absurd he (by decide)
      · exact absurd he (by decide)
      · exact absurd he (ne_mismatchMsg _ _ _ (by decide))
    · intro hno
      exact hno ⟨"%\n", mainContent_lastNonBlank files r k t, by decide⟩

/-- Every line produced by splitting a newline-terminated stream is a
terminated chunk. -/
theorem linesOf_termChunk_all (u : List Char) :
    (∃ w, u = w ++ ['\n']) → ∀ l ∈ linesOf u, termChunk l = true := by
  induction u with
  | nil =>
    intro h
    obtain ⟨w, hw⟩ := h
    exact absurd hw.symm (by simp)
  | cons c cs ih =>
    intro h l hl
    obtain ⟨w, hw⟩ := h
    rcases w with _ | ⟨a, w2⟩
    · rw [List.nil_append, List.cons.injEq] at hw
      obtain ⟨hc, hcs⟩ := hw
      subst hc
      subst hcs
      rw [linesOf_cons_nl] at hl
      rcases List.mem_cons.mp hl with rfl | hmem
      · rfl
      · exact absurd hmem (by simp [linesOf])
    · rw [List.cons_append, List.cons.injEq] at hw
      obtain ⟨hc, hcs⟩ := hw
      subst hc
      have hcs_ne : cs ≠ [] := by
        rw [hcs]
        simp
      by_cases hnl : c = '\n'
      · subst hnl
        rw [linesOf_cons_nl] at hl
        rcases List.mem_cons.mp hl with rfl | hmem
        · rfl
        · exact ih ⟨w2, hcs⟩ l hmem
      · rcases hsplit : linesOf cs with _ | ⟨l0, ls0⟩
        · exact absurd hsplit (linesOf_ne_nil cs hcs_ne)
        · rw [linesOf_cons_other c cs hnl, hsplit] at hl
          rcases List.mem_cons.mp hl with rfl | hmem
          · have h0 : termChunk l0 = true := by
              apply ih ⟨w2, hcs⟩
              rw [hsplit]
              simp
            unfold termChunk
            rw [if_neg hnl]
            exact h0
          · apply ih ⟨w2, hcs⟩
            rw [hsplit]
            simp [hmem]

/-- Every line read from a newline-terminated (or empty) file content is
a terminated chunk. -/
theorem readlines_termChunk (f : String)
    (h : f.data = [] ∨ ∃ w, f.data = w ++ ['\n']) :
    ∀ l ∈ readlines f, termChunk l.data = true := by
  intro l hl
  unfold readlines at hl
  rcases h with h | h
  · rw [h] at hl
    exact absurd hl (by simp [linesOf])
  · obtain ⟨cs, hcs, hmk⟩ := List.mem_map.mp hl
    rw [← hmk]
    exact linesOf_termChunk_all f.data h cs hcs

/-- The header is a selection of input lines. -/
theorem extract_header_subset (ls : List String) (l : String)
    (h : l ∈ extract_header ls) : l ∈ ls := by
  induction ls with
  | nil => exact absurd h (by simp [extract_header])
  | cons a as ih =>
    unfold extract_header at h
    by_cases ha : headerEndLine a = true
    · rw [if_pos ha] at h
      rcases List.mem_cons.mp h with rfl | hmem
      · simp
      · exact absurd hmem (by simp)
    · rw [if_neg ha] at h
      rcases List.mem_cons.mp h with rfl | hmem
      · simp
      · simp [ih hmem]

/-- The body loop yields a selection of input lines. -/
theorem extractBodyGo_subset (s : Bool) (ls : List String) (l : String)
    (h : l ∈ extractBodyGo s ls) : l ∈ ls := by
  induction ls generalizing s with
  | nil => exact absurd h (by simp [extractBodyGo])
  | cons a as ih =>
    unfold extractBodyGo at h
    by_cases hs : (s || bodyStartLine a) = true
    · rw [if_pos hs] at h
      by_cases ht : bodyTerminatorLine a = true
      · rw [if_pos ht] at h
        exact absurd h (by simp)
      · rw [if_neg ht] at h
        rcases List.mem_cons.mp h with rfl | hmem
        · simp
        · simp [ih true hmem]
    · rw [if_neg hs] at h
      simp only [Bool.not_eq_true, Bool.or_eq_false_iff] at hs
      simp [ih false h]

/-- The body is a selection of input lines. -/
theorem extract_body_subset (ls : List String) (l : String)
    (h : l ∈ extract_body ls) : l ∈ ls :=
  extractBodyGo_subset false ls l h

/-- A terminated chunk stays terminated after a non-newline head. -/
theorem termChunk_cons (c : Char) (rest : List Char) (hc : c ≠ '\n')
    (h : termChunk rest = true) : termChunk (c :: rest) = true := by
  unfold termChunk
  rw [if_neg hc]
  exact h

/-- Dropping characters outside the newline class keeps termination. -/
theorem termChunk_dropWhile (p : Char → Bool) (hp : p '\n' = false) :
    ∀ cs : List Char, termChunk cs = true → termChunk (cs.dropWhile p) = true := by
  intro cs
  induction cs with
  | nil => intro h; exact absurd h (by simp [termChunk])
  | cons c rest ih =>
    intro h
    by_cases hc : c = '\n'
    · subst hc
      rw [List.dropWhile_cons, if_neg (by rw [hp]; simp)]
      exact h
    · have hrest : termChunk rest = true := by
        unfold termChunk at h
        rwa [if_neg hc] at h
      rw [List.dropWhile_cons]
      by_cases hpc : p c = true
      · rw [if_pos hpc]
        exact ih hrest
      · rw [if_neg hpc]
        exact termChunk_cons c rest hc hrest

/-- A terminated line with a nonempty lstrip lstrips to a terminated
chunk. -/
theorem termChunk_lstrip (cs : List Char) (c : Char) (r : List Char)
    (h : termChunk cs = true) (hl : lstripChars cs = c :: r) :
    termChunk (c :: r) = true := by
  induction cs with
  | nil => exact absurd h (by simp [termChunk])
  | cons a rest ih =>
    by_cases hw : isPyWs a = true
    · have hanl : a ≠ '\n' := by
        intro hae
        subst hae
        have hrest : rest = [] := by
          unfold termChunk at h
          rw [if_pos rfl] at h
          rcases rest with _ | ⟨x, xs⟩
          · rfl
          · exact absurd h (by simp)
        rw [hrest] at hl
        unfold lstripChars at hl
        rw [show List.dropWhile isPyWs ('\n' :: []) = [] from by decide] at hl
        exact absurd hl (by simp)
      have hrest : termChunk rest = true := by
        unfold termChunk at h
        rwa [if_neg hanl] at h
      apply ih hrest
      unfold lstripChars at hl ⊢
      rwa [List.dropWhile_cons, if_pos hw] at hl
    · simp only [Bool.not_eq_true] at hw
      unfold lstripChars at hl
      rw [List.dropWhile_cons, if_neg (by rw [hw]; simp)] at hl
      rw [← hl]
      exact h

/-- Evaluation of the renumbering substitution on a two-element head. -/
theorem stripSeqNum_cons2 (c1 c2 : Char) (rest : List Char) :
    stripSeqNum (c1 :: c2 :: rest) =
      if c1 = 'N' then
        if isDigitChar c2 then ((c2 :: rest).dropWhile isDigitChar).dropWhile isSpTab
        else c1 :: c2 :: rest
      else c1 :: c2 :: rest := rfl

/-- The renumbering substitution keeps a chunk terminated. -/
theorem termChunk_stripSeqNum (c : Char) (r : List Char)
    (h : termChunk (c :: r) = true) : termChunk (stripSeqNum (c :: r)) = true := by
  rcases r with _ | ⟨c2, rest⟩
  · exact h
  · rw [stripSeqNum_cons2]
    by_cases hc : c = 'N'
    · rw [if_pos hc]
      by_cases hd : isDigitChar c2 = true
      · rw [if_pos hd]
        have hcnl : c ≠ '\n' := by
          rw [hc]
          decide
        have h2 : termChunk (c2 :: rest) = true := by
          unfold termChunk at h
          rwa [if_neg hcnl] at h
        exact termChunk_dropWhile isSpTab (by decide) _
          (termChunk_dropWhile isDigitChar (by decide) _ h2)
      · rw [if_neg hd]
        exact h
    · rw [if_neg hc]
      exact h

/-- All digit characters of a number representation are not newlines, so
prefixing them to a terminated chunk keeps it terminated. -/
theorem termChunk_digitsPfx (ds : List Char) (hd : ∀ c ∈ ds, isDigitChar c = true)
    (x : List Char) (hx : termChunk x = true) : termChunk (ds ++ x) = true := by
  induction ds with
  | nil => exact hx
  | cons d ds2 ih =>
    rw [List.cons_append]
    refine termChunk_cons d _ (digit_ne_nl d (hd d (by simp))) ?_
    exact ih (fun c hc => hd c (by simp [hc]))

/-- A renumbered line is a terminated chunk when its source line is. -/
theorem termChunk_mkRenumbered (n : Nat) (l : String)
    (hN : lstripStartsN l = true) (h : termChunk l.data = true) :
    termChunk (mkRenumbered n l).data = true := by
  obtain ⟨r1, hr1⟩ := Nstart_lstrip l hN
  rw [mkRenumbered_data]
  simp only [List.cons_append]
  refine termChunk_cons 'N' _ (by decide) ?_
  refine termChunk_digitsPfx (natReprData n) (natReprData_digits n) _ ?_
  refine termChunk_cons ' ' _ (by decide) ?_
  rw [hr1]
  exact termChunk_stripSeqNum 'N' r1 (termChunk_lstrip l.data 'N' r1 h hr1)

/-- Every line in the normalizer output is a terminated chunk when every
input line is and the configured call line is. -/
theorem cnrGo_termChunk (cfg : MergeConfig)
    (hcall : termChunk (callLine cfg.toolchange_subroutine).data = true) :
    ∀ (lines : List String) (n : Nat) (st : ScriptStats),
    (∀ l ∈ lines, termChunk l.data = true) →
    ∀ l ∈ (cnrGo cfg lines n st).1, termChunk l.data = true := by
  intro lines
  induction lines with
  | nil => intro n st hin l hl; exact absurd hl (by simp [cnrGo])
  | cons a as ih =>
    intro n st hin l hl
    rw [cnrGo_cons_fst, processLine_chunk] at hl
    have ha : termChunk a.data = true := hin a (by simp)
    have hrec := ih (processLine cfg st n a).2.1 (processLine cfg st n a).2.2
      (fun x hx => hin x (by simp [hx]))
    rcases List.mem_append.mp hl with hl1 | hl2
    · by_cases hc : isCommentLine a
      · rw [if_pos hc] at hl1
        by_cases hk : (cfg.keep_all_comments || is_important_comment a) = true
        · rw [if_pos hk] at hl1
          rcases List.mem_cons.mp hl1 with rfl | hx
          · exact ha
          · exact absurd hx (by simp)
        · rw [if_neg hk] at hl1
          exact absurd hl1 (by simp)
      · rw [if_neg hc] at hl1
        rcases List.mem_append.mp hl1 with hl3 | hl4
        · by_cases hi : (cfg.insert_toolchange_call && isToolchange a) = true
          · rw [if_pos hi] at hl3
            rcases List.mem_cons.mp hl3 with rfl | hx
            · exact hcall
            · exact absurd hx (by simp)
          · rw [if_neg hi] at hl3
            exact absurd hl3 (by simp)
        · rcases List.mem_cons.mp hl4 with rfl | hx
          · by_cases hr : (cfg.renumber && lstripStartsN a) = true
            · rw [if_pos hr]
              exact termChunk_mkRenumbered n a
                (Bool.and_eq_true _ _ |>.mp hr).2 ha
            · rw [if_neg hr]
              exact ha
          · exact absurd hx (by simp)
    · exact hrec l hl2

/-- The toolchange lines contributed by one normalizer iteration: one per
toolchange input line, with classification preserved through renumbering
for non-pathological lines. -/
theorem processLine_chunk_tccount (cfg : MergeConfig) (st : ScriptStats) (n : Nat)
    (l : String)
    (hgood : isToolchange l = true → lstripStartsN l = true →
      spec_sequenced_instruction l = true) :
    (processLine cfg st n l).1.countP (fun x => isToolchange x) =
      if isToolchange l then 1 else 0 := by
  rw [processLine_chunk]
  by_cases hc : isCommentLine l
  · have htc : isToolchange l = false := not_toolchange_of_comment l hc
    by_cases hk : (cfg.keep_all_comments || is_important_comment l) = true
    · simp [hc, hk, htc, List.countP_cons]
    · simp only [Bool.not_eq_true] at hk
      simp [hc, hk, htc]
  · simp only [Bool.not_eq_true] at hc
    have hpres : (if (cfg.renumber && lstripStartsN l) = true
        then mkRenumbered n l else l) = mkRenumbered n l ∨
        (if (cfg.renumber && lstripStartsN l) = true
        then mkRenumbered n l else l) = l := by
      by_cases hr : (cfg.renumber && lstripStartsN l) = true
      · exact Or.inl (if_pos hr)
      · exact Or.inr (if_neg hr)
    have hemit : isToolchange (if (cfg.renumber && lstripStartsN l) = true
        then mkRenumbered n l else l) = isToolchange l := by
      by_cases hr : (cfg.renumber && lstripStartsN l) = true
      · rw [if_pos hr]
        exact isToolchange_mkRenumbered n l (Bool.and_eq_true _ _ |>.mp hr).2
          (fun h => hgood h (Bool.and_eq_true _ _ |>.mp hr).2)
      · rw [if_neg hr]
    simp only [Bool.and_eq_true] at hemit
    by_cases hi : (cfg.insert_toolchange_call && isToolchange l) = true
    · simp [hc, hi, List.countP_cons, callLine_not_toolchange, hemit]
    · simp only [Bool.not_eq_true] at hi
      simp [hc, hi, List.countP_cons, hemit]

/-- The normalizer output has exactly as many toolchange lines as its
input stream, for non-pathological streams. -/
theorem cnrGo_tccount (cfg : MergeConfig) :
    ∀ (lines : List String) (n : Nat) (st : ScriptStats),
    (∀ l ∈ lines, isToolchange l = true → lstripStartsN l = true →
      spec_sequenced_instruction l = true) →
    (cnrGo cfg lines n st).1.countP (fun x => isToolchange x) =
      lines.countP (fun x => isToolchange x) := by
  intro lines
  induction lines with
  | nil => intro n st hgood; simp [cnrGo]
  | cons l ls ih =>
    intro n st hgood
    rw [cnrGo_cons_fst, List.countP_append,
      processLine_chunk_tccount cfg st n l (hgood l (by simp)),
      ih _ _ (fun x hx h1 h2 => hgood x (by simp [hx]) h1 h2), List.countP_cons]
    by_cases htc : isToolchange l = true
    · simp [htc]
      omega
    · simp [htc]

/-- Folding append over strings concatenates the character data. -/
theorem foldl_append_data (ls : List String) : ∀ acc : String,
    (ls.foldl (fun r s => r ++ s) acc).data =
      acc.data ++ (ls.map String.data).flatten := by
  induction ls with
  | nil => intro acc; simp
  | cons x xs ih =>
    intro acc
    rw [List.foldl_cons, ih (acc ++ x), String.data_append]
    simp

/-- The character data of a joined list of strings. -/
theorem String_join_data (ls : List String) :
    (String.join ls).data = (ls.map String.data).flatten := by
  rw [show String.join ls = ls.foldl (fun r s => r ++ s) "" from rfl,
    foldl_append_data]
  rfl

/-- Rebuilding a string from its data is the identity. -/
theorem String_mk_data (s : String) : String.mk s.data = s := rfl

/-- Reading back the assembled output recovers the header, separator,
normalized stream, separator, and closing lines, when every header and
stream line is a terminated chunk. -/
theorem readlines_content_of_chunks (header processed : List String)
    (hh : ∀ l ∈ header, termChunk l.data = true)
    (hp : ∀ l ∈ processed, termChunk l.data = true) :
    readlines (outputContent header processed) =
      header ++ ["\n"] ++ processed ++ ["\n", "M5\n", "G53 G0 Z0.\n", "M30\n", "%\n"] := by
  have hdata : (outputContent header processed).data =
      ((header.map String.data) ++ [['\n']] ++ (processed.map String.data) ++
        [['\n'], "M5\n".data, "G53 G0 Z0.\n".data, "M30\n".data, "%\n".data]).flatten := by
    unfold outputContent closingBlock
    rw [String.data_append, String.data_append, String.data_append,
      String.data_append, String.data_append, String.data_append,
      String_join_data, String_join_data]
    simp [List.flatten_append]
  have hall : ∀ t ∈ (header.map String.data) ++ [['\n']] ++
      (processed.map String.data) ++
      [['\n'], "M5\n".data, "G53 G0 Z0.\n".data, "M30\n".data, "%\n".data],
      termChunk t = true := by
    intro t ht
    rcases List.mem_append.mp ht with ht1 | ht2
    · rcases List.mem_append.mp ht1 with ht3 | ht4
      · rcases List.mem_append.mp ht3 with ht5 | ht6
        · obtain ⟨l, hl, hld⟩ := List.mem_map.mp ht5
          rw [← hld]
          exact hh l hl
        · rcases List.mem_cons.mp ht6 with rfl | hx
          · rfl
          · exact absurd hx (by simp)
      · obtain ⟨l, hl, hld⟩ := List.mem_map.mp ht4
        rw [← hld]
        exact hp l hl
    · simp only [List.mem_cons, List.not_mem_nil, or_false] at ht2
      rcases ht2 with rfl | rfl | rfl | rfl | rfl
      · rfl
      · decide
      · decide
      · decide
      · decide
  unfold readlines
  rw [hdata, linesOf_flatten _ hall]
  simp only [List.map_append, List.map_map, List.map_cons, List.map_nil]
  rw [show (String.mk ∘ String.data) = id from funext String_mk_data]
  simp

/-- Elements of the merged body stream come from some input file. -/
theorem mergedBodies_mem (files : List String) (l : String)
    (h : l ∈ mergedBodies files) :
    ∃ f ∈ files, l ∈ extract_body (readlines f) := by
  unfold mergedBodies at h
  obtain ⟨bs, hbs, hl⟩ := List.mem_flatten.mp h
  obtain ⟨f, hf, hfb⟩ := List.mem_map.mp hbs
  exact ⟨f, hf, by rw [hfb]; exact hl⟩

/-- The newline-termination hypothesis on a file content, in decidable
form, gives the structural split. -/
theorem file_ends_nl (f : String)
    (h : f.data = [] ∨ f.data.getLast? = some '\n') :
    f.data = [] ∨ ∃ w, f.data = w ++ ['\n'] := by
  rcases h with h | h
  · exact Or.inl h
  · exact Or.inr (List.getLast?_eq_some_iff.mp h)

/-- Reading back a full run splits into header, separators, normalized
stream and closing lines, when every input file ends with a newline. -/
theorem readlines_mainContent_full (files : List String) (r k t : Bool)
    (h0 : ∀ f ∈ files, f.data = [] ∨ f.data.getLast? = some '\n') :
    readlines (mainContent files r k t) =
      mainHeader files ++ ["\n"] ++ (preStats files r k t).1 ++
        ["\n", "M5\n", "G53 G0 Z0.\n", "M30\n", "%\n"] := by
  apply readlines_content_of_chunks
  · intro l hl
    rcases files with _ | ⟨f0, fs⟩
    · exact absurd hl (by simp [mainHeader])
    · exact readlines_termChunk f0 (file_ends_nl f0 (h0 f0 (by simp))) l
        (extract_header_subset _ l hl)
  · intro l hl
    rw [show (preStats files r k t).1 =
      (cnrGo (mainConfig r k t) (mergedBodies files)
        (mainConfig r k t).start_n {}).1 from rfl] at hl
    have hcall : termChunk (callLine (mainConfig r k t).toolchange_subroutine).data =
        true := by
      rw [show (mainConfig r k t).toolchange_subroutine = "toolchange" from rfl]
      decide
    refine cnrGo_termChunk (mainConfig r k t) hcall (mergedBodies files)
      (mainConfig r k t).start_n {} ?_ l hl
    intro x hx
    obtain ⟨f, hf, hxb⟩ := mergedBodies_mem files x hx
    exact readlines_termChunk f (file_ends_nl f (h0 f hf)) x
      (extract_body_subset _ x hxb)

/-- The final counters of a run before validation. -/
theorem preStats_toolchanges (files : List String) (r k t : Bool) :
    (preStats files r k t).2.toolchanges =
      (mergedBodies files).countP (fun x => isToolchange x) := by
  rw [show (preStats files r k t).2.toolchanges =
    (cnrGo (mainConfig r k t) (mergedBodies files)
      (mainConfig r k t).start_n {}).2.toolchanges from rfl,
    cnrGo_toolchanges]
  simp

/-- The error list a run carries after validation. -/
theorem mainRun_errors (files : List String) (r k t : Bool) :
    (mainRun files r k t).2.validation_errors =
      validatorErrors (readlines (mainContent files r k t))
        (preStats files r k t).2 "%\n" := by
  unfold mainRun
  dsimp only
  rw [validate_output_eq _ _ _ (mainContent_getLast files r k t)]

/-- C8 counterexample: on a file whose header ends at its toolchange, the
toolchange line lands in both the header and the body, the recount sees
it twice against a counter of one, and the internal-consistency
diagnostic is recorded. -/
theorem toolchange_recount_mismatch_cex :
    (mainRun ["N10 G0\nN20 T1 M6\nX1\nM30\n"] true false false).2.validation_errors =
      ["Internal error: toolchange count mismatch (2 vs 1)"] := by
  decide

/-- C8 amended: the recount matches and the mismatch diagnostic stays
silent provided every input file ends with a newline, the extracted
header contains no toolchange line, and no body toolchange has its
letter N followed by a non-digit. -/
theorem toolchange_recount_consistent (files : List String) (r k t : Bool)
    (h0 : ∀ f ∈ files, f.data = [] ∨ f.data.getLast? = some '\n')
    (h1 : ∀ l ∈ mainHeader files, isToolchange l = false)
    (h2 : ∀ l ∈ mergedBodies files, isToolchange l = true → lstripStartsN l = true →
      spec_sequenced_instruction l = true) :
    toolchangeRecount (readlines (mainContent files r k t)) =
      (preStats files r k t).2.toolchanges ∧
    ∀ a b : Nat, mismatchMsg a b ∉ (mainRun files r k t).2.validation_errors := by
  have hmain : toolchangeRecount (readlines (mainContent files r k t)) =
      (preStats files r k t).2.toolchanges := by
    rw [readlines_mainContent_full files r k t h0]
    unfold toolchangeRecount
    rw [List.countP_append, List.countP_append, List.countP_append]
    rw [List.countP_eq_zero.mpr (by
      intro l hl
      rw [h1 l hl]
      simp)]
    rw [show List.countP (fun l => isToolchange l) ["\n"] = 0 from by decide,
      show List.countP (fun l => isToolchange l)
        ["\n", "M5\n", "G53 G0 Z0.\n", "M30\n", "%\n"] = 0 from by decide]
    rw [show (preStats files r k t).1 =
      (cnrGo (mainConfig r k t) (mergedBodies files)
        (mainConfig r k t).start_n {}).1 from rfl,
      cnrGo_tccount (mainConfig r k t) (mergedBodies files)
        (mainConfig r k t).start_n {} h2,
      preStats_toolchanges]
    omega
  refine ⟨hmain, ?_⟩
  intro a b hmem
  rw [mainRun_errors, mem_validatorErrors] at hmem
  rcases hmem with ⟨_, he⟩ | ⟨_, he⟩ | ⟨_, he⟩ | ⟨hne, _⟩
  · exact absurd he.symm (ne_mismatchMsg a b _ (by decide))
  · exact absurd he.symm (ne_mismatchMsg a b _ (by decide))
  · exact absurd he.symm (ne_mismatchMsg a b _ (by decide))
  · exact hne hmain

/-- Witness for the amended recount claim on a concrete run. -/
theorem toolchange_recount_consistent_witness :
    toolchangeRecount (readlines (mainContent
        ["(drill op1)\nN20 G53 G0 Z0.\nN30 T1 M6\nX1\nM30\n"] true false false)) =
      (preStats ["(drill op1)\nN20 G53 G0 Z0.\nN30 T1 M6\nX1\nM30\n"]
        true false false).2.toolchanges ∧
    "Internal error: toolchange count mismatch (2 vs 1)" ∉
      (mainRun ["(drill op1)\nN20 G53 G0 Z0.\nN30 T1 M6\nX1\nM30\n"]
        true false false).2.validation_errors := by
  have h := toolchange_recount_consistent
    ["(drill op1)\nN20 G53 G0 Z0.\nN30 T1 M6\nX1\nM30\n"] true false false
    (by decide) (by decide) (by decide)
  exact ⟨h.1, h.2 2 1⟩
